import Mathlib

/-!
# strgraphcpp: memoised evaluation of a string-operation graph

A shallow embedding of `strgraphcpp.cpp`.

* `std::string` is a list of bytes (`Str`).
* `size_t` values are natural numbers; the one place where the source relies on
  unsigned arithmetic that can wrap (`endIndex - startIndex`) is written with an
  explicit `% 2 ^ 64`.
* The graph (`std::vector<std::shared_ptr<Node>>`) is a list of node records, a
  node being its cache slot together with the fields of its concrete class.
* Evaluation mutates the graph, so it is written in state-passing style and
  returns the final graph next to its result.  An exception thrown by
  `nodes.at(index)` is the result `Res.outOfRange`; the graph returned with it is
  the state in which the exception leaves the objects.
* Recursion through the graph and the `while` loop of `ReplacementNode` need not
  terminate, so both consume fuel; `Res.outOfFuel` stands for "has not returned
  within this budget".
* The members of `std::string`, `std::to_string`, `::toupper` and `::tolower`
  belong to the standard library; they are written from their documented
  behaviour (`toupper`, `tolower` in the "C" locale).
* Strings have no size limit in the evaluation functions. The one loop that can
  grow a string without end, the replacement loop with an empty `oldString`, is
  also given on strings of limited size (`ReplacementNode.loopWithin`), where
  `replace` throws once the limit would be exceeded; the limit is a parameter.
* JSON parsing is outside the program: `Graph::deserialize` is modelled on the
  parsed array of node descriptions (`NodeJson`), whose numbers are JSON
  integers (`JsonInt`); the conversions to `int` and `size_t` the source applies
  to them are part of the model.
* The variant semantics of the specification are given a second time, from the
  words of the specification (`specSemantics`, `specEval`), for the comparison
  of the code with them.
-/

namespace StrGraph

/-- A `std::string`: a sequence of bytes. -/
abbrev Str := List UInt8

/-- Number of values of a `size_t` (64 bits): unsigned arithmetic is modulo it. -/
def sizeMod : Nat := 2 ^ 64

/-- Outcome of a call that yields a string: the value, the `std::out_of_range`
thrown by `std::vector::at`, or exhaustion of the evaluation budget. -/
inductive Res where
  | ok (s : Str)
  | outOfRange
  | outOfFuel
  deriving DecidableEq, Repr

/-- The concrete node classes with their fields. -/
inductive Kind where
  | constant (value : Str)
  | concatenation (childrenIndices : List Nat)
  | substring (inputNodeIndex startIndex endIndex : Nat)
  | replacement (inputNodeIndex oldNodeIndex newNodeIndex : Nat)
  | patternMatching (inputNodeIndex patternNodeIndex : Nat)
  | caseConversion (inputNodeIndex : Nat) (conversionType : Str)
  | lengthCalculation (inputNodeIndex : Nat)
  deriving DecidableEq, Repr

/-- A node object: the base-class field `cached_result` and the derived-class
fields. -/
structure Node where
  cached_result : Option Str
  kind : Kind
  deriving DecidableEq, Repr

/-- The member `nodes` of `Graph`. -/
abbrev Graph := List Node

/-- `Node::has_cache`. -/
def Node.has_cache (n : Node) : Bool := n.cached_result.isSome

/-- `Node::invalidateCache`. -/
def Node.invalidateCache (n : Node) : Node := { n with cached_result := none }

/-- `getDependencies` of each class. -/
def Kind.getDependencies : Kind → List Nat
  | .constant _ => []
  | .concatenation cs => cs
  | .substring i _ _ => [i]
  | .replacement i o n => [i, o, n]
  | .patternMatching i p => [i, p]
  | .caseConversion i _ => [i]
  | .lengthCalculation i => [i]

/-- `Node::getDependencies` (virtual dispatch on the class). -/
def Node.getDependencies (n : Node) : List Nat := n.kind.getDependencies

/-- `Graph::getNode`: `nodes.at(index)`, which throws for `index >= size()`. -/
def Graph.getNode (g : Graph) (index : Nat) : Option Node := g[index]?

/-- In-place update of the node object stored at position `i`. -/
def Graph.modifyNode (g : Graph) (i : Nat) (f : Node → Node) : Graph :=
  match g[i]? with
  | some n => g.set i (f n)
  | none => g

/-! ## String primitives of the standard library -/

/-- UTF-8 encoding of one code point. -/
def utf8 (n : Nat) : Str :=
  if n < 128 then [UInt8.ofNat n]
  else if n < 2048 then [UInt8.ofNat (192 + n / 64), UInt8.ofNat (128 + n % 64)]
  else if n < 65536 then
    [UInt8.ofNat (224 + n / 4096), UInt8.ofNat (128 + n / 64 % 64), UInt8.ofNat (128 + n % 64)]
  else
    [UInt8.ofNat (240 + n / 262144), UInt8.ofNat (128 + n / 4096 % 64),
      UInt8.ofNat (128 + n / 64 % 64), UInt8.ofNat (128 + n % 64)]

/-- The bytes of a text literal (UTF-8). -/
def bytes (s : String) : Str := s.data.flatMap fun c => utf8 c.toNat

/-- Search for `pat` at the successive suffixes of a string, `i` being the
position of the current suffix. -/
def findAux (pat : Str) : Str → Nat → Option Nat
  | [], i => if pat = [] then some i else none
  | c :: cs, i => if pat.isPrefixOf (c :: cs) then some i else findAux pat cs (i + 1)

/-- `std::string::find(pat, pos)`: the least position `p >= pos` at which `pat`
occurs in `s`, `none` for `npos`. -/
def find (s pat : Str) (pos : Nat) : Option Nat :=
  if pos ≤ s.length then findAux pat (s.drop pos) pos else none

/-- `std::string::substr(pos, count)` for `pos <= size()`: the bytes
`[pos, pos + min(count, size() - pos))`. -/
def substr (s : Str) (pos count : Nat) : Str := (s.drop pos).take count

/-- `std::string::replace(pos, len, str)` for `pos <= size()`. -/
def replace (s : Str) (pos len : Nat) (str : Str) : Str :=
  s.take pos ++ str ++ s.drop (pos + min len (s.length - pos))

/-- Decimal digits of a number, least significant first handled by the
accumulator. -/
def toDigits : Nat → Nat → Str → Str
  | 0, _, acc => acc
  | fuel + 1, n, acc =>
    let acc1 := UInt8.ofNat (48 + n % 10) :: acc
    if n / 10 = 0 then acc1 else toDigits fuel (n / 10) acc1

/-- `std::to_string` of a `size_t`. -/
def to_string (n : Nat) : Str := toDigits (n + 1) n []

/-- `::toupper` in the "C" locale, on a byte. -/
def toupper (c : UInt8) : UInt8 :=
  if 97 ≤ c.toNat ∧ c.toNat ≤ 122 then UInt8.ofNat (c.toNat - 32) else c

/-- `::tolower` in the "C" locale, on a byte. -/
def tolower (c : UInt8) : UInt8 :=
  if 65 ≤ c.toNat ∧ c.toNat ≤ 90 then UInt8.ofNat (c.toNat + 32) else c

/-! ## The bodies of `eval_inner`, on evaluated dependencies -/

/-- Sequencing inside a function body: the rest of the body runs on the string a
call returned; an exception, or an exhausted budget, ends the body at once. -/
def andThen (x : Graph × Res) (k : Graph → Str → Graph × Res) : Graph × Res :=
  match x with
  | (g, .ok s) => k g s
  | (g, .outOfRange) => (g, .outOfRange)
  | (g, .outOfFuel) => (g, .outOfFuel)

/-- The value `endIndex` has when `substr` is called in
`SubstringNode::eval_inner`: `if (endIndex > input.size()) endIndex = input.size()`. -/
def SubstringNode.clampedEnd (endIndex : Nat) (input : Str) : Nat :=
  if endIndex > input.length then input.length else endIndex

/-- The string returned by `SubstringNode::eval_inner` for the evaluated input;
`endIndex - startIndex` is a `size_t` subtraction. -/
def SubstringNode.result (startIndex endIndex : Nat) (input : Str) : Str :=
  if startIndex ≥ input.length then []
  else
    substr input startIndex
      ((SubstringNode.clampedEnd endIndex input + sizeMod - startIndex) % sizeMod)

/-- The assignment to the member `endIndex`. -/
def Node.setEndIndex (e : Nat) (n : Node) : Node :=
  match n.kind with
  | .substring i s _ => { n with kind := .substring i s e }
  | _ => n

/-- The assignment `cached_result = ...` in `Node::eval`. -/
def Node.setCache (s : Str) (n : Node) : Node := { n with cached_result := some s }

/-- The `while` loop of `ReplacementNode::eval_inner`, from the state
`(result, pos)`; `fuel` bounds the number of times the loop condition is
evaluated, `none` meaning that the loop has not returned. The strings are taken
without a size limit here, so `replace` does not throw; `loopWithin` below is
the loop on strings of limited size, and returns this result whenever it
returns. -/
def ReplacementNode.loop (oldString newString : Str) : Nat → Str → Nat → Option Str
  | 0, _, _ => none
  | fuel + 1, result, pos =>
    match find result oldString pos with
    | none => some result
    | some p =>
      ReplacementNode.loop oldString newString fuel
        (replace result p oldString.length newString) (p + newString.length)

/-- The part of `ReplacementNode::eval_inner` after its three dependencies. -/
def ReplacementNode.result (fuel : Nat) (input oldString newString : Str) : Res :=
  match ReplacementNode.loop oldString newString fuel input 0 with
  | some r => .ok r
  | none => .outOfFuel

/-- How the `while` loop of `ReplacementNode::eval_inner` is left: its condition
fails and `result` is returned, or `result.replace` throws. -/
inductive LoopExit where
  | returned (result : Str)
  | threw
  deriving DecidableEq, Repr

/-- `s.replace(pos, len, str)` for `pos <= size()` on a string whose size cannot
exceed `cap` (`max_size()`, or less where memory runs out first): `none` when the
new size `size() - min(len, size() - pos) + str.size()` would exceed `cap`, in
which case `replace` throws (`std::length_error`, or `std::bad_alloc`). -/
def replaceWithin (cap : Nat) (s : Str) (pos len : Nat) (str : Str) : Option Str :=
  if s.length - min len (s.length - pos) + str.length > cap then none
  else some (replace s pos len str)

/-- The `while` loop of `ReplacementNode::eval_inner` on strings limited to `cap`
bytes, from the state `(result, pos)`: `ReplacementNode.loop` with the exception
of `result.replace`; `none` means that the loop is still running after `fuel`
evaluations of its condition. After a `replace` that did not throw,
`pos + newString.length()` is at most the new size, hence at most `cap`, which
is below `2^64`: the addition does not wrap. -/
def ReplacementNode.loopWithin (cap : Nat) (oldString newString : Str) :
    Nat → Str → Nat → Option LoopExit
  | 0, _, _ => none
  | fuel + 1, result, pos =>
    match find result oldString pos with
    | none => some (.returned result)
    | some p =>
      match replaceWithin cap result p oldString.length newString with
      | none => some .threw
      | some r => ReplacementNode.loopWithin cap oldString newString fuel r (p + newString.length)

/-- The part of `PatternMatchingNode::eval_inner` after its dependencies. -/
def PatternMatchingNode.result (input pattern : Str) : Str :=
  if (find input pattern 0).isSome then bytes "true" else bytes "false"

/-- The part of `CaseConversionNode::eval_inner` after its dependency. -/
def CaseConversionNode.result (conversionType input : Str) : Str :=
  if conversionType = bytes "upper" then input.map toupper
  else if conversionType = bytes "lower" then input.map tolower
  else input

/-- The part of `LengthCalculationNode::eval_inner` after its dependency. -/
def LengthCalculationNode.result (input : Str) : Str := to_string input.length

/-! ## Memoised evaluation -/

/-- The loop of `ConcatenationNode::eval_inner` over the remaining children,
`result` being the string built so far and `ev` the call
`graph.getNode(index)->eval(graph)`. -/
def ConcatenationNode.loop (ev : Graph → Nat → Graph × Res) :
    List Nat → Graph → Str → Graph × Res
  | [], g, result => (g, .ok result)
  | index :: rest, g, result =>
    andThen (ev g index) fun g1 s => ConcatenationNode.loop ev rest g1 (result ++ s)

/-- The method `eval_inner` of the node at position `self`, whose fields are `k`;
`ev` is the call `graph.getNode(index)->eval(graph)` and `fuel` the budget of the
replacement loop.  The fields read after a dependency call are those read before
it: a call that returns has not re-entered this node. -/
def eval_inner (fuel : Nat) (ev : Graph → Nat → Graph × Res) (self : Nat) (g : Graph) :
    Kind → Graph × Res
  | .constant value => (g, .ok value)
  | .concatenation childrenIndices => ConcatenationNode.loop ev childrenIndices g []
  | .substring inputNodeIndex startIndex endIndex =>
    andThen (ev g inputNodeIndex) fun g1 input =>
      if startIndex ≥ input.length then (g1, .ok [])
      else if endIndex > input.length then
        (g1.modifyNode self (Node.setEndIndex input.length),
          .ok (SubstringNode.result startIndex endIndex input))
      else (g1, .ok (SubstringNode.result startIndex endIndex input))
  | .replacement inputNodeIndex oldNodeIndex newNodeIndex =>
    andThen (ev g inputNodeIndex) fun g1 input =>
    andThen (ev g1 oldNodeIndex) fun g2 oldString =>
    andThen (ev g2 newNodeIndex) fun g3 newString =>
      (g3, ReplacementNode.result fuel input oldString newString)
  | .patternMatching inputNodeIndex patternNodeIndex =>
    andThen (ev g inputNodeIndex) fun g1 input =>
    andThen (ev g1 patternNodeIndex) fun g2 pattern =>
      (g2, .ok (PatternMatchingNode.result input pattern))
  | .caseConversion inputNodeIndex conversionType =>
    andThen (ev g inputNodeIndex) fun g1 input =>
      (g1, .ok (CaseConversionNode.result conversionType input))
  | .lengthCalculation inputNodeIndex =>
    andThen (ev g inputNodeIndex) fun g1 input =>
      (g1, .ok (LengthCalculationNode.result input))

/-- The call `graph.getNode(i)->eval(graph)` with `inner` for `eval_inner`:
`nodes.at(i)`, then the cache test, then `cached_result = eval_inner(graph)`. -/
def Node.evalWith (inner : Graph → Kind → Graph × Res) (g : Graph) (i : Nat) :
    Graph × Res :=
  match g.getNode i with
  | none => (g, .outOfRange)
  | some n =>
    match n.cached_result with
    | some s => (g, .ok s)
    | none => andThen (inner g n.kind) fun g1 s => (g1.modifyNode i (Node.setCache s), .ok s)

/-- The call `graph.getNode(i)->eval(graph)`; `fuel` bounds the depth of nested
`eval_inner` calls (and the iterations of a replacement loop). -/
def Node.eval : Nat → Graph → Nat → Graph × Res
  | 0, g, i => Node.evalWith (fun g1 _ => (g1, .outOfFuel)) g i
  | fuel + 1, g, i =>
    Node.evalWith (fun g1 k => eval_inner (fuel + 1) (Node.eval fuel) i g1 k) g i

/-- The class `Computation`. -/
structure Computation where
  graph : Graph
  outputIndex : Nat
  deriving DecidableEq, Repr

/-- `Computation::eval`. -/
def Computation.eval (fuel : Nat) (c : Computation) : Computation × Res :=
  let r := Node.eval fuel c.graph c.outputIndex
  ({ c with graph := r.1 }, r.2)

/-- `ConstantNode::setValue` on the node at position `c`, which has to be a
`ConstantNode`. -/
def ConstantNode.setValue (g : Graph) (c : Nat) (val : Str) : Option Graph :=
  match g.getNode c with
  | some ⟨cache, .constant _⟩ => some (g.set c (Node.invalidateCache ⟨cache, .constant val⟩))
  | _ => none

/-! ## The invalidation sweep -/

/-- How a `void` call ends: it returns, or `nodes.at` throws. -/
inductive Exit where
  | returned
  | outOfRange
  deriving DecidableEq, Repr

/-- The inner loop of `checkInvalidateCache` over the dependencies of a cached
node: `some true` when it reaches a dependency without cache (`invalidateCache`
and `break`), `some false` when it runs to the end, `none` when `getNode` throws. -/
def depScan (g : Graph) : List Nat → Option Bool
  | [] => some false
  | depIndex :: rest =>
    match g.getNode depIndex with
    | none => none
    | some d => if d.has_cache then depScan g rest else some true

/-- The loop `for (auto& n : nodes)` of `checkInvalidateCache` over the positions
still to visit. -/
def sweepNodes : List Nat → Graph → Graph × Exit
  | [], g => (g, .returned)
  | k :: rest, g =>
    match g.getNode k with
    | none => sweepNodes rest g
    | some n =>
      if n.has_cache then
        match depScan g n.getDependencies with
        | none => (g, .outOfRange)
        | some true => sweepNodes rest (g.modifyNode k Node.invalidateCache)
        | some false => sweepNodes rest g
      else sweepNodes rest g

/-- `Graph::checkInvalidateCache`.  The flag `visited` is set to `false` at the
top of the body of `while (visited)` and assigned nowhere else, so the loop
condition fails after the first iteration: the body runs exactly once. -/
def Graph.checkInvalidateCache (g : Graph) : Graph × Exit :=
  sweepNodes (List.range g.length) g

/-! ## Construction from the input record -/

/-- A JSON number the parser holds as an integer: a value from `-2^63` to
`2^64 - 1` (the parser keeps such a number in an `int64_t` or a `uint64_t`). -/
structure JsonInt where
  val : Int
  lower : -(2 ^ 63) ≤ val
  upper : val < 2 ^ 64
  deriving DecidableEq

/-- The JSON integer with a non-negative value below `2^64`. -/
def JsonInt.ofNat (n : Nat) (h : n < 2 ^ 64) : JsonInt :=
  ⟨n, le_trans (by decide) (Int.ofNat_nonneg n), by exact_mod_cast h⟩

/-- The conversion of an integer value to `size_t`: the value modulo `2^64`. -/
def intToSizeT (x : Int) : Nat := (x % 2 ^ 64).toNat

/-- A JSON integer read into a `size_t` (`size_t start = node["start"]`, or a
`size_t` constructor parameter): `static_cast<size_t>` of the stored value. -/
def JsonInt.toSizeT (z : JsonInt) : Nat := intToSizeT z.val

/-- A JSON integer read into an `int` (`for (int childIndex : node["nodes"])`):
`static_cast<int>` of the stored value, the 32-bit two's complement value
congruent to it modulo `2^32`. -/
def JsonInt.toInt (z : JsonInt) : Int := (z.val + 2 ^ 31) % 2 ^ 32 - 2 ^ 31

/-- The index `addChild(childIndex)` stores for a JSON child index: the value is
read into the `int childIndex` and that `int` is converted to the `size_t`
parameter of `addChild`. -/
def JsonInt.toChildIndex (z : JsonInt) : Nat := intToSizeT z.toInt

/-- One element of the JSON array `nodes`, as `Graph::deserialize` reads it: the
`node_type` with the fields that are read for it (`nodes[0]`, `nodes[1]`, ... by
position), strings as byte sequences and numbers as JSON integers; `other` is an
element with any other `node_type`. The field `index` is only stored in a local
map that is never read. -/
inductive NodeJson where
  | constant (value : Str)
  | concatenation (nodes : List JsonInt)
  | substring (input start stop : JsonInt)
  | replacement (input oldNode newNode : JsonInt)
  | pattern_matching (input pattern : JsonInt)
  | case_conversion (input : JsonInt) (type : Str)
  | length_calculation (input : JsonInt)
  | other
  deriving DecidableEq

/-- The node object one branch of the loop of `Graph::deserialize` constructs;
no branch is taken for an unrecognised `node_type`. The children of a
concatenation go through `int childIndex`; every other index, and `start` and
`end`, are converted to `size_t` directly. -/
def NodeJson.toNode : NodeJson → Option Node
  | .constant value => some ⟨none, .constant value⟩
  | .concatenation nodes => some ⟨none, .concatenation (nodes.map JsonInt.toChildIndex)⟩
  | .substring input start stop =>
    some ⟨none, .substring input.toSizeT start.toSizeT stop.toSizeT⟩
  | .replacement input oldNode newNode =>
    some ⟨none, .replacement input.toSizeT oldNode.toSizeT newNode.toSizeT⟩
  | .pattern_matching input pattern =>
    some ⟨none, .patternMatching input.toSizeT pattern.toSizeT⟩
  | .case_conversion input type => some ⟨none, .caseConversion input.toSizeT type⟩
  | .length_calculation input => some ⟨none, .lengthCalculation input.toSizeT⟩
  | .other => none

/-- `Graph::deserialize` on a graph whose `nodes` are `nodes`: one `push_back`
for every element of a recognised type, in order. No index is checked. -/
def Graph.deserialize (nodes : Graph) (j : List NodeJson) : Graph :=
  j.foldl (fun acc d =>
    match d.toNode with
    | some n => acc ++ [n]
    | none => acc) nodes

/-- The input record: `graph.nodes` and `output_node_index`. -/
structure InputJson where
  graph : List NodeJson
  output_node_index : JsonInt
  deriving DecidableEq

/-- `Computation::deserialize` on a new `Computation`; `outputIndex` is a
`size_t`. -/
def Computation.deserialize (j : InputJson) : Computation :=
  { graph := Graph.deserialize [] j.graph, outputIndex := j.output_node_index.toSizeT }

/-- `eval_graph_cpp` on the parsed input. -/
def eval_graph_cpp (fuel : Nat) (j : InputJson) : Res :=
  (Computation.eval fuel (Computation.deserialize j)).2

/-! ## The code without cache -/

/-- Sequencing of two cache-free evaluations: the first failure is the result. -/
def Res.bind (r : Res) (k : Str → Res) : Res :=
  match r with
  | .ok s => k s
  | .outOfRange => .outOfRange
  | .outOfFuel => .outOfFuel

/-- Concatenation of the values of the listed nodes, in order, behind `result`. -/
def concatValues (val : Nat → Res) : List Nat → Str → Res
  | [], result => .ok result
  | index :: rest, result => (val index).bind fun s => concatValues val rest (result ++ s)

/-- The body of `eval_inner` of one node class on the values `val` of the other
nodes: the string the code computes from the strings its dependencies evaluate
to, the dependencies being taken in the order `eval_inner` calls them. This is
the code with the cache taken out, not the specification; the semantics of the
specification are `specSemantics`. -/
def variantSemantics (fuel : Nat) (val : Nat → Res) : Kind → Res
  | .constant value => .ok value
  | .concatenation cs => concatValues val cs []
  | .substring i startIndex endIndex =>
    (val i).bind fun input => .ok (SubstringNode.result startIndex endIndex input)
  | .replacement i o n =>
    (val i).bind fun input => (val o).bind fun oldString => (val n).bind fun newString =>
      ReplacementNode.result fuel input oldString newString
  | .patternMatching i p =>
    (val i).bind fun input => (val p).bind fun pattern =>
      .ok (PatternMatchingNode.result input pattern)
  | .caseConversion i t =>
    (val i).bind fun input => .ok (CaseConversionNode.result t input)
  | .lengthCalculation i =>
    (val i).bind fun input => .ok (LengthCalculationNode.result input)

/-- The code run on node `i` with no cache: the body of `eval_inner` of its class
applied to the values of its dependencies, obtained in the same way. -/
def pureEval : Nat → Graph → Nat → Res
  | 0, _, _ => .outOfFuel
  | fuel + 1, g, i =>
    match g.getNode i with
    | none => .outOfRange
    | some n => variantSemantics (fuel + 1) (pureEval fuel g) n.kind

/-! ## Reference notions for the string operations -/

/-- The replacement the specification describes, as one left-to-right pass over
the original input: at a position where `old` occurs the output gets `new` and
the bytes of that occurrence are skipped (`skip` counts those still to drop);
at any other position the byte is copied. -/
def replaceScan (old new : Str) : Nat → Str → Str
  | _, [] => []
  | skip + 1, _ :: cs => replaceScan old new skip cs
  | 0, c :: cs =>
    if old.isPrefixOf (c :: cs) then new ++ replaceScan old new (old.length - 1) cs
    else c :: replaceScan old new 0 cs

/-- The number of occurrences the pass of `replaceScan` replaces. -/
def countScan (old : Str) : Nat → Str → Nat
  | _, [] => 0
  | skip + 1, _ :: cs => countScan old skip cs
  | 0, c :: cs =>
    if old.isPrefixOf (c :: cs) then countScan old (old.length - 1) cs + 1
    else countScan old 0 cs

/-- The number a string of decimal digits denotes, most significant digit first. -/
def decimalValue (s : Str) : Nat :=
  s.foldl (fun acc c => 10 * acc + (c.toNat - 48)) 0

/-! ## The variant semantics of the specification -/

/-- Node `k` is among the direct or transitive dependencies of node `i`: there
is a path of one or more `getDependencies` edges from `i` to `k`. -/
inductive DependsOn (g : Graph) : Nat → Nat → Prop where
  | direct {i j : Nat} {n : Node} :
      g.getNode i = some n → j ∈ n.getDependencies → DependsOn g i j
  | step {i j k : Nat} {n : Node} :
      g.getNode i = some n → j ∈ n.getDependencies → DependsOn g j k → DependsOn g i k

/-- The dependency indices of `g` are valid and acyclic: every index is below the
number of nodes, and `rank` strictly decreases along every dependency edge. -/
def WellFormed (g : Graph) (rank : Nat → Nat) : Prop :=
  ∀ i n, g.getNode i = some n → ∀ d ∈ n.getDependencies, d < g.length ∧ rank d < rank i

/-- The nodes are stored in topological order: every dependency index of node
`i` is strictly smaller than `i`. -/
def TopoOrdered (g : Graph) : Prop :=
  ∀ i n, g.getNode i = some n → ∀ d ∈ n.getDependencies, d < i

/-- The graph has no Substring node. -/
def NoSubstring (g : Graph) : Prop :=
  ∀ n ∈ g, ∀ i s e, n.kind ≠ .substring i s e

/-- Every cache slot is empty. -/
def AllEmpty (g : Graph) : Prop := ∀ n ∈ g, n.cached_result = none

/-- Node `d` exists and its cache slot is populated. -/
def CachedAt (g : Graph) (d : Nat) : Prop :=
  ∃ m, g.getNode d = some m ∧ m.cached_result ≠ none

/-- Node `j` is cached with no uncached node among its direct or transitive
dependencies. -/
def Settled (g : Graph) (j : Nat) : Prop :=
  (∃ n, g.getNode j = some n ∧ n.cached_result ≠ none) ∧
    ∀ k m, DependsOn g j k → g.getNode k = some m → m.cached_result ≠ none

/-- The state `h` is the state `g` with some cache slots cleared and nothing
else changed. -/
def ClearedFrom (g h : Graph) : Prop :=
  h.length = g.length ∧
    ∀ j, h.getNode j = g.getNode j ∨
      ∃ n, g.getNode j = some n ∧ h.getNode j = some n.invalidateCache

/-- Every node with a populated cache has all its direct dependencies cached. -/
def DepsCached (g : Graph) : Prop :=
  ∀ i n, g.getNode i = some n → n.cached_result ≠ none →
    ∀ d ∈ n.getDependencies, CachedAt g d

/-- Every node with a populated cache has all its direct dependencies cached, and
its cached string is the value of the cache-free evaluation of that node under
the current fields. -/
def CacheConsistent (g : Graph) : Prop :=
  ∀ i n v, g.getNode i = some n → n.cached_result = some v →
    (∀ d ∈ n.getDependencies, CachedAt g d) ∧ ∃ f, pureEval f g i = .ok v

/-! ## What evaluation does to the state -/

/-- The fields `k'` are the fields `k`, or `k` is a Substring and `k'` the same
Substring with another `endIndex`. -/
def KindStep (k k' : Kind) : Prop :=
  k' = k ∨ ∃ i s e e', k = .substring i s e ∧ k' = .substring i s e'

/-- The state `g'` has the nodes of `g`, each with its fields up to `KindStep`
and with a populated cache slot if it had one. -/
def Frame (g g' : Graph) : Prop :=
  g'.length = g.length ∧
    ∀ j n, g.getNode j = some n →
      ∃ n', g'.getNode j = some n' ∧ KindStep n.kind n'.kind ∧
        (n.cached_result ≠ none → n'.cached_result ≠ none)

/-- A call started in state `g` ends in a state related to `g` by `R` and by
`Frame`, and in a state satisfying `Q` when it returns a string. -/
def EvalGoal (R : Graph → Graph → Prop) (g : Graph) (Q : Graph → Prop)
    (x : Graph × Res) : Prop :=
  R g x.1 ∧ Frame g x.1 ∧ ∀ s, x.2 = .ok s → Q x.1

/-! ## Invariant of memoised evaluation -/

/-- Node `j` of the state `g` agrees with the graph `g0`: a cached string is the
cache-free value of node `j` of `g0`, and a node without cache has the fields it
has in `g0`. -/
def NodeAgrees (g0 g : Graph) (j : Nat) : Prop :=
  ∀ n, g.getNode j = some n →
    (∀ v, n.cached_result = some v → ∃ f, pureEval f g0 j = .ok v) ∧
    (n.cached_result = none → ∃ n0, g0.getNode j = some n0 ∧ n0.kind = n.kind)

/-- The state `g` is a state of the evaluation of the graph `g0`. -/
def Agrees (g0 g : Graph) : Prop :=
  g.length = g0.length ∧ ∀ j, NodeAgrees g0 g j

/-- The same, apart from node `i`, whose `eval_inner` is running. -/
def AgreesExcept (g0 g : Graph) (i : Nat) : Prop :=
  g.length = g0.length ∧ ∀ j, j ≠ i → NodeAgrees g0 g j

/-! ## Example graphs -/

/-- An uncached `ConstantNode` holding a text. -/
def const (s : String) : Node := ⟨none, .constant (bytes s)⟩

/-- The end-to-end scenario: `[Constant "foo", Constant "bar", Concatenation [0, 1],
Length [2]]`, all caches empty. -/
def graphE2E : Graph :=
  [const "foo", const "bar", ⟨none, .concatenation [0, 1]⟩, ⟨none, .lengthCalculation 2⟩]

/-- The end-to-end graph after evaluation of node 3. -/
def graphE2Edone : Graph :=
  [⟨some (bytes "foo"), .constant (bytes "foo")⟩, ⟨some (bytes "bar"), .constant (bytes "bar")⟩,
    ⟨some (bytes "foobar"), .concatenation [0, 1]⟩, ⟨some (bytes "6"), .lengthCalculation 2⟩]

/-- The evaluated end-to-end graph after `setValue "quux"` on node 0. -/
def graphE2Eset : Graph :=
  [⟨none, .constant (bytes "quux")⟩, ⟨some (bytes "bar"), .constant (bytes "bar")⟩,
    ⟨some (bytes "foobar"), .concatenation [0, 1]⟩, ⟨some (bytes "6"), .lengthCalculation 2⟩]

/-- A constant and a cached length node whose dependency index is out of range
and whose cached value is not the length of anything in the graph. -/
def graphStale : Graph :=
  [⟨some (bytes "x"), .constant (bytes "x")⟩, ⟨some (bytes "3"), .lengthCalculation 7⟩]

/-- The text "hello" with three Substring nodes over it: `(start, end)` =
`(3, 1)`, `(2, 10)` and `(10, 20)`. -/
def graphSub : Graph :=
  [const "hello", ⟨none, .substring 0 3 1⟩, ⟨none, .substring 0 2 10⟩,
    ⟨none, .substring 0 10 20⟩]

/-- The chain before any evaluation. -/
def graphChain0 : Graph :=
  [⟨none, .lengthCalculation 1⟩, ⟨none, .lengthCalculation 2⟩, const "a"]

/-- Three chained nodes stored dependents first, all cached:
`[Length [1], Length [2], Constant "a"]` after an evaluation of node 0. -/
def graphChain : Graph :=
  [⟨some (bytes "1"), .lengthCalculation 1⟩, ⟨some (bytes "1"), .lengthCalculation 2⟩,
    ⟨some (bytes "a"), .constant (bytes "a")⟩]

/-- The evaluated chain after `setValue "aaaaaaaaaa"` on its constant. -/
def graphChainSet : Graph :=
  [⟨some (bytes "1"), .lengthCalculation 1⟩, ⟨some (bytes "1"), .lengthCalculation 2⟩,
    ⟨none, .constant (bytes "aaaaaaaaaa")⟩]

/-- The state `checkInvalidateCache` leaves `graphChainSet` in. -/
def graphChainSwept : Graph :=
  [⟨some (bytes "1"), .lengthCalculation 1⟩, ⟨none, .lengthCalculation 2⟩,
    ⟨none, .constant (bytes "aaaaaaaaaa")⟩]

/-- The same chain before any evaluation. -/
def graphTopo0 : Graph :=
  [const "a", ⟨none, .lengthCalculation 0⟩, ⟨none, .lengthCalculation 1⟩]

/-- The same chain after an evaluation of node 2. -/
def graphTopo : Graph :=
  [⟨some (bytes "a"), .constant (bytes "a")⟩, ⟨some (bytes "1"), .lengthCalculation 0⟩,
    ⟨some (bytes "1"), .lengthCalculation 1⟩]

/-- A chain stored dependencies first, `[Constant "a", Length [0], Length [1]]`,
after an evaluation of node 2 and `setValue "aaaaaaaaaa"` on node 0. -/
def graphTopoSet : Graph :=
  [⟨none, .constant (bytes "aaaaaaaaaa")⟩, ⟨some (bytes "1"), .lengthCalculation 0⟩,
    ⟨some (bytes "1"), .lengthCalculation 1⟩]

/-- The state `checkInvalidateCache` leaves `graphTopoSet` in. -/
def graphTopoSwept : Graph :=
  [⟨none, .constant (bytes "aaaaaaaaaa")⟩, ⟨none, .lengthCalculation 0⟩,
    ⟨none, .lengthCalculation 1⟩]

/-- A text, a pattern that occurs in it, the empty text, and PatternMatch nodes
over them: "wor" in "hello world", "" in "hello world", "" in "", and
"hello world" in "wor". -/
def graphPat : Graph :=
  [const "hello world", const "wor", ⟨none, .patternMatching 0 1⟩, const "",
    ⟨none, .patternMatching 0 3⟩, ⟨none, .patternMatching 3 3⟩,
    ⟨none, .patternMatching 1 0⟩]

/-- The text "héllo" (six bytes) and the empty text, each with a Length node. -/
def graphLen : Graph :=
  [const "héllo", ⟨none, .lengthCalculation 0⟩, const "", ⟨none, .lengthCalculation 2⟩]

/-- The text "Hello, World!" with CaseConversion nodes of mode "upper", "lower"
and "title". -/
def graphCase : Graph :=
  [const "Hello, World!", ⟨none, .caseConversion 0 (bytes "upper")⟩,
    ⟨none, .caseConversion 0 (bytes "lower")⟩, ⟨none, .caseConversion 0 (bytes "title")⟩]

/-- The JSON integer 5. -/
def JsonInt.five : JsonInt := JsonInt.ofNat 5 (by decide)

/-- The input `[Constant "a", Length [5]]` with output index `out`. -/
def inputDangling (out : JsonInt) : InputJson :=
  { graph := [.constant (bytes "a"), .length_calculation JsonInt.five],
    output_node_index := out }

/-- The input `[Constant "a", Length [5]]` with output index 0. -/
def inputDangling0 : InputJson := inputDangling (JsonInt.ofNat 0 (by decide))

/-- The input `[Constant "a", Length [5]]` with output index 1. -/
def inputDangling1 : InputJson := inputDangling (JsonInt.ofNat 1 (by decide))

/-- The input `[Constant "a", Length [5]]` with output index 7. -/
def inputDangling7 : InputJson := inputDangling (JsonInt.ofNat 7 (by decide))

/-- The input `[Constant "a", Concatenation [4294967296]]` with output index 1:
the child index is `2^32`. -/
def inputWide : InputJson :=
  { graph := [.constant (bytes "a"), .concatenation [JsonInt.ofNat 4294967296 (by decide)]],
    output_node_index := JsonInt.ofNat 1 (by decide) }

/-- The input `[Constant "a", Concatenation [-1]]` with output index 1. -/
def inputNegative : InputJson :=
  { graph := [.constant (bytes "a"), .concatenation [⟨-1, by decide, by decide⟩]],
    output_node_index := JsonInt.ofNat 1 (by decide) }

/-- The text "ab" with a Substring node of start 0 and end 10 over it. -/
def graphClamp0 : Graph := [const "ab", ⟨none, .substring 0 0 10⟩]

/-- The state after the evaluation of node 1 of `graphClamp0`: the member
`endIndex` of the Substring node is 2. -/
def graphClamp1 : Graph :=
  [⟨some (bytes "ab"), .constant (bytes "ab")⟩, ⟨some (bytes "ab"), .substring 0 0 2⟩]

/-- The state after `setValue "hello"` on node 0 of `graphClamp1` and the sweep. -/
def graphClamp2 : Graph :=
  [⟨none, .constant (bytes "hello")⟩, ⟨none, .substring 0 0 2⟩]

/-- The graph as constructed, with the new constant: end 10. -/
def graphClampFresh : Graph := [const "hello", ⟨none, .substring 0 0 10⟩]

/-! ## Basic facts about the state -/

theorem modifyNode_length (g : Graph) (i : Nat) (f : Node → Node) :
    (g.modifyNode i f).length = g.length := by
  unfold Graph.modifyNode
  split <;> simp

theorem modifyNode_getElem? (g : Graph) (i j : Nat) (f : Node → Node) :
    (g.modifyNode i f)[j]? = if i = j then (g[j]?).map f else g[j]? := by
  unfold Graph.modifyNode
  by_cases hij : i = j
  · subst hij
    cases h : g[i]? with
    | none => simp [h]
    | some n =>
      have hi : i < g.length := (List.getElem?_eq_some_iff.mp h).1
      simp [h, List.getElem?_set, hi]
  · cases h : g[i]? with
    | none => simp [hij]
    | some n => simp [hij, List.getElem?_set]

theorem andThen_ok {x : Graph × Res} {k : Graph → Str → Graph × Res} {g : Graph} {s : Str}
    (h : andThen x k = (g, .ok s)) :
    ∃ g1 s1, x = (g1, .ok s1) ∧ k g1 s1 = (g, .ok s) := by
  rcases x with ⟨g1, r⟩
  cases r with
  | ok s1 => exact ⟨g1, s1, rfl, h⟩
  | outOfRange => simp [andThen] at h
  | outOfFuel => simp [andThen] at h

theorem andThen_length {x : Graph × Res} {k : Graph → Str → Graph × Res} {n : Nat}
    (hx : x.1.length = n) (hk : ∀ g s, g.length = n → (k g s).1.length = n) :
    (andThen x k).1.length = n := by
  rcases x with ⟨g1, r⟩
  cases r with
  | ok s1 => exact hk g1 s1 hx
  | outOfRange => exact hx
  | outOfFuel => exact hx

theorem ConcatenationNode.loop_length (ev : Graph → Nat → Graph × Res)
    (hev : ∀ g j, (ev g j).1.length = g.length) (cs : List Nat) (g : Graph) (acc : Str) :
    (ConcatenationNode.loop ev cs g acc).1.length = g.length := by
  induction cs generalizing g acc with
  | nil => rfl
  | cons c cs ih =>
    simp only [ConcatenationNode.loop]
    exact andThen_length (hev g c) fun g1 s h1 => by rw [ih, h1]

theorem eval_inner_length (fuel : Nat) (ev : Graph → Nat → Graph × Res)
    (hev : ∀ g j, (ev g j).1.length = g.length) (self : Nat) (g : Graph) (k : Kind) :
    (eval_inner fuel ev self g k).1.length = g.length := by
  cases k with
  | constant v => rfl
  | concatenation cs => exact ConcatenationNode.loop_length ev hev cs g []
  | substring i s e =>
    simp only [eval_inner]
    refine andThen_length (hev g i) fun g1 input h1 => ?_
    split
    · exact h1
    · split
      · simp [modifyNode_length, h1]
      · exact h1
  | replacement i o n =>
    simp only [eval_inner]
    refine andThen_length (hev g i) fun g1 _ h1 => ?_
    refine andThen_length ((hev g1 o).trans h1) fun g2 _ h2 => ?_
    exact andThen_length ((hev g2 n).trans h2) fun g3 _ h3 => h3
  | patternMatching i q =>
    simp only [eval_inner]
    refine andThen_length (hev g i) fun g1 _ h1 => ?_
    exact andThen_length ((hev g1 q).trans h1) fun g2 _ h2 => h2
  | caseConversion i t =>
    simp only [eval_inner]
    exact andThen_length (hev g i) fun g1 _ h1 => h1
  | lengthCalculation i =>
    simp only [eval_inner]
    exact andThen_length (hev g i) fun g1 _ h1 => h1

theorem Node.evalWith_length (inner : Graph → Kind → Graph × Res)
    (hin : ∀ g k, (inner g k).1.length = g.length) (g : Graph) (i : Nat) :
    (Node.evalWith inner g i).1.length = g.length := by
  unfold Node.evalWith
  split
  · rfl
  · split
    · rfl
    · exact andThen_length (hin g _) fun g1 s h1 => by simp [modifyNode_length, h1]

theorem Node.eval_length (fuel : Nat) (g : Graph) (i : Nat) :
    (Node.eval fuel g i).1.length = g.length := by
  induction fuel generalizing g i with
  | zero => exact Node.evalWith_length _ (fun _ _ => rfl) g i
  | succ f ih =>
    exact Node.evalWith_length _ (fun g1 k => eval_inner_length _ _ ih i g1 k) g i

/-- What a call of `Node::eval` that returns a string did: either the cache held
the string and nothing changed, or `eval_inner` returned it in a state `g1` and
it was stored in the slot of node `i`. -/
theorem Node.evalWith_ok {inner : Graph → Kind → Graph × Res} {g g' : Graph} {i : Nat}
    {s : Str} (h : Node.evalWith inner g i = (g', .ok s)) :
    ∃ n, g[i]? = some n ∧
      ((n.cached_result = some s ∧ g' = g) ∨
       (n.cached_result = none ∧ ∃ g1, inner g n.kind = (g1, .ok s) ∧
          g' = g1.modifyNode i (Node.setCache s))) := by
  unfold Node.evalWith Graph.getNode at h
  cases hn : g[i]? with
  | none => simp [hn] at h
  | some n =>
    refine ⟨n, rfl, ?_⟩
    simp only [hn] at h
    cases hc : n.cached_result with
    | some s0 =>
      simp only [hc, Prod.mk.injEq, Res.ok.injEq] at h
      exact Or.inl ⟨by rw [h.2], h.1.symm⟩
    | none =>
      simp only [hc] at h
      obtain ⟨g1, s1, h1, h2⟩ := andThen_ok h
      simp only [Prod.mk.injEq, Res.ok.injEq] at h2
      obtain ⟨h2, rfl⟩ := h2
      exact Or.inr ⟨rfl, g1, h1, h2.symm⟩

/-- A node with a populated cache is returned as it is. -/
theorem Node.eval_cached (fuel : Nat) {g : Graph} {i : Nat} {n : Node} {s : Str}
    (hn : g[i]? = some n) (hc : n.cached_result = some s) :
    Node.eval fuel g i = (g, .ok s) := by
  cases fuel <;> simp [Node.eval, Node.evalWith, Graph.getNode, hn, hc]

theorem Node.eval_ok {fuel : Nat} {g g' : Graph} {i : Nat} {s : Str}
    (h : Node.eval fuel g i = (g', .ok s)) :
    ∃ n, g[i]? = some n ∧
      ((n.cached_result = some s ∧ g' = g) ∨
       (n.cached_result = none ∧ ∃ f g1, fuel = f + 1 ∧
          eval_inner (f + 1) (Node.eval f) i g n.kind = (g1, .ok s) ∧
          g' = g1.modifyNode i (Node.setCache s))) := by
  cases fuel with
  | zero =>
    obtain ⟨n, hn, h1 | ⟨_, g1, h1, _⟩⟩ := Node.evalWith_ok h
    · exact ⟨n, hn, Or.inl h1⟩
    · simp at h1
  | succ f =>
    obtain ⟨n, hn, h1 | ⟨hc, g1, h1, h2⟩⟩ := Node.evalWith_ok h
    · exact ⟨n, hn, Or.inl h1⟩
    · exact ⟨n, hn, Or.inr ⟨hc, f, g1, rfl, h1, h2⟩⟩

theorem Node.eval_succ_uncached (f : Nat) {g : Graph} {i : Nat} {n : Node}
    (hn : g[i]? = some n) (hc : n.cached_result = none) :
    Node.eval (f + 1) g i =
      andThen (eval_inner (f + 1) (Node.eval f) i g n.kind)
        fun g1 s => (g1.modifyNode i (Node.setCache s), .ok s) := by
  simp [Node.eval, Node.evalWith, Graph.getNode, hn, hc]

theorem ev_outOfRange (fuel : Nat) (g : Graph) (d : Nat) (hd : g.length ≤ d) :
    Node.eval fuel g d = (g, .outOfRange) := by
  have : g[d]? = none := List.getElem?_eq_none hd
  cases fuel <;> simp [Node.eval, Node.evalWith, Graph.getNode, this]

/-- A node with an empty cache whose first dependency index is outside the graph
throws at once, in an unchanged state. -/
theorem Node.eval_first_dangling (fuel : Nat) {g : Graph} {i : Nat} {n : Node} {d : Nat}
    {rest : List Nat} (hn : g.getNode i = some n) (hc : n.cached_result = none)
    (hdeps : n.getDependencies = d :: rest) (hlen : g.length ≤ d) :
    Node.eval (fuel + 1) g i = (g, .outOfRange) := by
  rw [Node.eval_succ_uncached fuel hn hc]
  have hev := ev_outOfRange fuel g d hlen
  unfold Node.getDependencies at hdeps
  cases hk : n.kind with
  | constant v => rw [hk] at hdeps; simp [Kind.getDependencies] at hdeps
  | concatenation cs =>
    rw [hk] at hdeps
    simp only [Kind.getDependencies] at hdeps
    subst hdeps
    simp [eval_inner, ConcatenationNode.loop, hev, andThen]
  | substring a st e =>
    rw [hk] at hdeps
    simp only [Kind.getDependencies, List.cons.injEq] at hdeps
    obtain ⟨rfl, _⟩ := hdeps
    simp [eval_inner, hev, andThen]
  | replacement a o nw =>
    rw [hk] at hdeps
    simp only [Kind.getDependencies, List.cons.injEq] at hdeps
    obtain ⟨rfl, _⟩ := hdeps
    simp [eval_inner, hev, andThen]
  | patternMatching a q =>
    rw [hk] at hdeps
    simp only [Kind.getDependencies, List.cons.injEq] at hdeps
    obtain ⟨rfl, _⟩ := hdeps
    simp [eval_inner, hev, andThen]
  | caseConversion a t =>
    rw [hk] at hdeps
    simp only [Kind.getDependencies, List.cons.injEq] at hdeps
    obtain ⟨rfl, _⟩ := hdeps
    simp [eval_inner, hev, andThen]
  | lengthCalculation a =>
    rw [hk] at hdeps
    simp only [Kind.getDependencies, List.cons.injEq] at hdeps
    obtain ⟨rfl, _⟩ := hdeps
    simp [eval_inner, hev, andThen]

theorem ConstantNode.setValue_some {g h : Graph} {c : Nat} {val : Str}
    (hset : ConstantNode.setValue g c val = some h) :
    (∃ cache v0, g.getNode c = some ⟨cache, .constant v0⟩) ∧
      h = g.set c ⟨none, .constant val⟩ := by
  unfold ConstantNode.setValue at hset
  split at hset
  · rename_i cache v0 hg
    injection hset with hset
    exact ⟨⟨cache, v0, hg⟩, hset.symm⟩
  · exact absurd hset (by simp)

theorem ConstantNode.setValue_getNode {g h : Graph} {c : Nat} {val : Str}
    (hset : ConstantNode.setValue g c val = some h) :
    h.getNode c = some ⟨none, .constant val⟩ ∧ ∀ j, j ≠ c → h.getNode j = g.getNode j := by
  obtain ⟨⟨cache, v0, hg⟩, rfl⟩ := ConstantNode.setValue_some hset
  have hc : c < g.length := (List.getElem?_eq_some_iff.mp hg).1
  refine ⟨by simp [Graph.getNode, List.getElem?_set, hc], fun j hj => ?_⟩
  simp [Graph.getNode, List.getElem?_set_ne (Ne.symm hj)]

theorem ConstantNode.setValue_deps {g h : Graph} {c : Nat} {val : Str}
    (hset : ConstantNode.setValue g c val = some h) {j : Nat} {n : Node}
    (hn : h.getNode j = some n) :
    ∃ n', g.getNode j = some n' ∧ n'.getDependencies = n.getDependencies ∧
      ((∃ i s e, n.kind = .substring i s e) → ∃ i s e, n'.kind = .substring i s e) := by
  obtain ⟨hc, hne⟩ := ConstantNode.setValue_getNode hset
  obtain ⟨⟨cache, v0, hg⟩, _⟩ := ConstantNode.setValue_some hset
  by_cases hj : j = c
  · subst hj
    rw [hc] at hn
    injection hn with hn
    subst hn
    exact ⟨_, hg, rfl, fun ⟨i, s, e, h⟩ => by cases h⟩
  · rw [hne j hj] at hn
    exact ⟨n, hn, rfl, id⟩

/-! ## Substring, decimal digits, letter case -/

theorem SubstringNode.result_of_le {startIndex endIndex : Nat} {input : Str}
    (hse : startIndex ≤ endIndex) (he : endIndex < sizeMod) :
    SubstringNode.result startIndex endIndex input =
      if startIndex ≥ input.length then []
      else (input.take (min endIndex input.length)).drop startIndex := by
  unfold SubstringNode.result
  by_cases hs : startIndex ≥ input.length
  · simp [hs]
  · have hs' : startIndex < input.length := Nat.lt_of_not_ge hs
    have hce : SubstringNode.clampedEnd endIndex input = min endIndex input.length := by
      unfold SubstringNode.clampedEnd
      split <;> omega
    have hsub : (min endIndex input.length + sizeMod - startIndex) % sizeMod =
        min endIndex input.length - startIndex := by
      have h1 : min endIndex input.length + sizeMod - startIndex =
          (min endIndex input.length - startIndex) + sizeMod := by omega
      rw [h1, Nat.add_mod_right, Nat.mod_eq_of_lt]
      omega
    rw [if_neg hs, if_neg hs, hce, hsub, substr, List.drop_take]

/-- The byte of a decimal digit. -/
theorem digit_toNat (d : Nat) (hd : d < 10) : (UInt8.ofNat (48 + d)).toNat = 48 + d := by
  simp [UInt8.toNat, UInt8.ofNat, Fin.ofNat]
  omega

/-- `to_string` writes the digits of `Nat.digits 10`, most significant first. -/
theorem toDigits_eq (fuel n : Nat) (acc : Str) (hf : n < fuel) :
    toDigits fuel n acc =
      (if n = 0 then [UInt8.ofNat 48]
       else (Nat.digits 10 n).reverse.map fun d => UInt8.ofNat (48 + d)) ++ acc := by
  induction fuel generalizing n acc with
  | zero => omega
  | succ f ih =>
    simp only [toDigits]
    by_cases h0 : n / 10 = 0
    · have hlt : n < 10 := by omega
      simp only [h0, if_true]
      by_cases hn : n = 0
      · subst hn; simp
      · have hpos : 0 < n := Nat.pos_of_ne_zero hn
        rw [if_neg hn, Nat.digits_def' (by norm_num) hpos, h0]
        simp [Nat.mod_eq_of_lt hlt]
    · have hn : n ≠ 0 := by rintro rfl; simp at h0
      have hpos : 0 < n := Nat.pos_of_ne_zero hn
      rw [if_neg h0, if_neg hn, ih (n / 10) _ (by omega), if_neg h0,
        Nat.digits_def' (by norm_num) hpos]
      simp

theorem to_string_eq (n : Nat) :
    to_string n =
      if n = 0 then [UInt8.ofNat 48]
      else (Nat.digits 10 n).reverse.map fun d => UInt8.ofNat (48 + d) := by
  rw [to_string, toDigits_eq (n + 1) n [] (Nat.lt_succ_self n), List.append_nil]

theorem decimalValue_digits (L : List Nat) (hL : ∀ d ∈ L, d < 10) :
    decimalValue (L.reverse.map fun d => UInt8.ofNat (48 + d)) = Nat.ofDigits 10 L := by
  induction L with
  | nil => rfl
  | cons d L ih =>
    have hd := hL d (List.mem_cons_self _ _)
    have ih' := ih fun x hx => hL x (List.mem_cons_of_mem _ hx)
    simp only [decimalValue] at ih' ⊢
    simp only [List.reverse_cons, List.map_append, List.map_cons, List.map_nil,
      List.foldl_append, List.foldl_cons, List.foldl_nil, ih', Nat.ofDigits_cons,
      digit_toNat d hd]
    omega

theorem to_string_canonical (n : Nat) :
    (∀ c ∈ to_string n, 48 ≤ c.toNat ∧ c.toNat ≤ 57) ∧
      to_string n ≠ [] ∧
      (n = 0 → to_string n = bytes "0") ∧
      (n ≠ 0 → (to_string n).head? ≠ some (UInt8.ofNat 48)) ∧
      decimalValue (to_string n) = n := by
  rw [to_string_eq]
  by_cases hn : n = 0
  · subst hn
    simp only [if_true]
    refine ⟨?_, by simp, fun _ => by decide, fun h => absurd rfl h, by decide⟩
    intro c hc
    simp only [List.mem_singleton] at hc
    subst hc
    decide
  · simp only [if_neg hn]
    have hlt : ∀ d ∈ Nat.digits 10 n, d < 10 := fun d hd => Nat.digits_lt_base (by norm_num) hd
    refine ⟨?_, ?_, fun h => absurd h hn, fun _ => ?_, ?_⟩
    · intro c hc
      simp only [List.mem_map, List.mem_reverse] at hc
      obtain ⟨d, hd, rfl⟩ := hc
      rw [digit_toNat d (hlt d hd)]
      have := hlt d hd
      omega
    · simp [Nat.digits_ne_nil_iff_ne_zero.mpr hn]
    · have hne : Nat.digits 10 n ≠ [] := Nat.digits_ne_nil_iff_ne_zero.mpr hn
      have hlast := Nat.getLast_digit_ne_zero 10 hn
      intro hhead
      rw [List.head?_map, List.head?_reverse] at hhead
      rw [List.getLast?_eq_getLast _ hne] at hhead
      simp only [Option.map_some', Option.some.injEq] at hhead
      have h1 := congrArg UInt8.toNat hhead
      rw [digit_toNat _ (hlt _ (List.getLast_mem hne))] at h1
      have h2 : (UInt8.ofNat 48).toNat = 48 := by decide
      rw [h2] at h1
      exact hlast (by omega)
    · rw [decimalValue_digits _ hlt, Nat.ofDigits_digits]

theorem toupper_spec (c : UInt8) :
    (97 ≤ c.toNat ∧ c.toNat ≤ 122 → (toupper c).toNat = c.toNat - 32) ∧
      (¬ (97 ≤ c.toNat ∧ c.toNat ≤ 122) → toupper c = c) := by
  unfold toupper
  refine ⟨fun h => ?_, fun h => by rw [if_neg h]⟩
  rw [if_pos h]
  simp [UInt8.toNat, UInt8.ofNat, Fin.ofNat]
  have := h.2
  simp only [UInt8.toNat] at this
  omega

theorem tolower_spec (c : UInt8) :
    (65 ≤ c.toNat ∧ c.toNat ≤ 90 → (tolower c).toNat = c.toNat + 32) ∧
      (¬ (65 ≤ c.toNat ∧ c.toNat ≤ 90) → tolower c = c) := by
  unfold tolower
  refine ⟨fun h => ?_, fun h => by rw [if_neg h]⟩
  rw [if_pos h]
  simp [UInt8.toNat, UInt8.ofNat, Fin.ofNat]
  have := h.2
  simp only [UInt8.toNat] at this
  omega

theorem toupper_idem (c : UInt8) : toupper (toupper c) = toupper c := by
  by_cases h : 97 ≤ c.toNat ∧ c.toNat ≤ 122
  · have h1 := (toupper_spec c).1 h
    exact (toupper_spec (toupper c)).2 (by omega)
  · have h1 := (toupper_spec c).2 h
    rw [h1, h1]

theorem tolower_idem (c : UInt8) : tolower (tolower c) = tolower c := by
  by_cases h : 65 ≤ c.toNat ∧ c.toNat ≤ 90
  · have h1 := (tolower_spec c).1 h
    exact (tolower_spec (tolower c)).2 (by omega)
  · have h1 := (tolower_spec c).2 h
    rw [h1, h1]

theorem CaseConversionNode.result_idem (t input : Str) :
    CaseConversionNode.result t (CaseConversionNode.result t input) =
      CaseConversionNode.result t input := by
  unfold CaseConversionNode.result
  by_cases hu : t = bytes "upper"
  · simp only [hu, if_true, List.map_map]
    exact List.map_congr_left fun c _ => toupper_idem c
  · by_cases hl : t = bytes "lower"
    · simp only [hu, hl, if_true, if_false, List.map_map]
      have hne : ¬ bytes "lower" = bytes "upper" := by decide
      simp only [hne, if_false, List.map_map]
      exact List.map_congr_left fun c _ => tolower_idem c
    · simp only [hu, hl, if_false]

/-! ## The replacement loop against the reference scan -/

theorem findAux_shift (pat : Str) (s : Str) (i : Nat) :
    findAux pat s i = (findAux pat s 0).map (· + i) := by
  induction s generalizing i with
  | nil => simp only [findAux]; split <;> simp
  | cons c cs ih =>
    simp only [findAux]
    split
    · simp
    · rw [ih (i + 1), ih (0 + 1)]
      cases findAux pat cs 0 with
      | none => simp
      | some v => simp; omega

theorem find_append (done rest pat : Str) :
    find (done ++ rest) pat done.length = (findAux pat rest 0).map (· + done.length) := by
  unfold find
  rw [if_pos (by simp), List.drop_left, findAux_shift]

theorem findAux_isSome_iff (pat s : Str) (i : Nat) :
    (findAux pat s i).isSome = true ↔ pat <:+: s := by
  induction s generalizing i with
  | nil =>
    simp only [findAux, List.infix_nil]
    split <;> simp [*]
  | cons c cs ih =>
    simp only [findAux, List.infix_cons_iff]
    by_cases hp : pat.isPrefixOf (c :: cs) = true
    · simp [hp, List.isPrefixOf_iff_prefix.mp hp]
    · have hp' : ¬ pat <+: c :: cs := fun h => hp (List.isPrefixOf_iff_prefix.mpr h)
      simp [hp, hp', ih]

theorem find_isSome_iff (input pattern : Str) :
    (find input pattern 0).isSome = true ↔ ∃ p s, input = p ++ pattern ++ s := by
  unfold find
  simp only [Nat.zero_le, if_true, List.drop_zero]
  rw [findAux_isSome_iff]
  constructor
  · rintro ⟨p, s, h⟩
    exact ⟨p, s, h.symm⟩
  · rintro ⟨p, s, h⟩
    exact ⟨p, s, h.symm⟩

theorem find_nil (result : Str) (pos : Nat) (hpos : pos ≤ result.length) :
    find result [] pos = some pos := by
  unfold find
  rw [if_pos hpos]
  cases result.drop pos <;> simp [findAux, List.isPrefixOf]

theorem replaceScan_skip (old new : Str) (xs post : Str) :
    replaceScan old new xs.length (xs ++ post) = replaceScan old new 0 post := by
  induction xs with
  | nil => rfl
  | cons x xs ih => simpa [replaceScan] using ih

theorem countScan_skip (old : Str) (xs post : Str) :
    countScan old xs.length (xs ++ post) = countScan old 0 post := by
  induction xs with
  | nil => rfl
  | cons x xs ih => simpa [countScan] using ih

/-- The two ways a scan from the start of `rest` can go: no occurrence at all, or
a first occurrence after a prefix `pre`. -/
theorem scan_cases (old new : Str) (hold : old ≠ []) (rest : Str) :
    (findAux old rest 0 = none ∧ replaceScan old new 0 rest = rest ∧
        countScan old 0 rest = 0) ∨
      ∃ pre post, findAux old rest 0 = some pre.length ∧ rest = pre ++ old ++ post ∧
        replaceScan old new 0 rest = pre ++ new ++ replaceScan old new 0 post ∧
        countScan old 0 rest = countScan old 0 post + 1 := by
  induction rest with
  | nil => left; simp [findAux, hold, replaceScan, countScan]
  | cons c cs ih =>
    by_cases hp : old.isPrefixOf (c :: cs) = true
    · right
      obtain ⟨post, hpost⟩ := List.isPrefixOf_iff_prefix.mp hp
      obtain ⟨o, os, rfl⟩ := List.exists_cons_of_ne_nil hold
      simp only [List.cons_append, List.cons.injEq] at hpost
      obtain ⟨rfl, rfl⟩ := hpost
      refine ⟨[], post, by simp [findAux, hp], by simp, ?_, ?_⟩
      · simp only [replaceScan, hp, if_true, List.length_cons, Nat.add_sub_cancel,
          List.nil_append]
        rw [replaceScan_skip]
      · simp only [countScan, hp, if_true, List.length_cons, Nat.add_sub_cancel]
        rw [countScan_skip]
    · rcases ih with ⟨h1, h2, h3⟩ | ⟨pre, post, h1, h2, h3, h4⟩
      · left
        refine ⟨?_, ?_, ?_⟩
        · simp only [findAux, hp]
          rw [findAux_shift, h1]; rfl
        · simp only [replaceScan, hp]; simp [h2]
        · simp only [countScan, hp]; simp [h3]
      · right
        refine ⟨c :: pre, post, ?_, by simp [h2], ?_, ?_⟩
        · simp only [findAux, hp]
          rw [findAux_shift, h1]; simp
        · simp only [replaceScan, hp]; simp [h3]
        · simp only [countScan, hp]; simp [h4]

theorem replace_at (done pre old post new : Str) :
    replace (done ++ (pre ++ old ++ post)) (pre.length + done.length) old.length new =
      (done ++ pre ++ new) ++ post := by
  unfold replace
  have h1 : (done ++ (pre ++ old ++ post)).take (pre.length + done.length) = done ++ pre := by
    rw [show done ++ (pre ++ old ++ post) = (done ++ pre) ++ (old ++ post) by simp]
    exact List.take_left' (by simp [Nat.add_comm])
  have h2 : (done ++ (pre ++ old ++ post)).drop
      (pre.length + done.length +
        min old.length ((done ++ (pre ++ old ++ post)).length - (pre.length + done.length))) =
      post := by
    rw [show done ++ (pre ++ old ++ post) = (done ++ pre ++ old) ++ post by simp]
    exact List.drop_left' (by simp; omega)
  rw [h1, h2]

theorem ReplacementNode.loop_scan (old new : Str) (hold : old ≠ []) (fuel : Nat)
    (done rest : Str) (hfuel : countScan old 0 rest < fuel) :
    ReplacementNode.loop old new fuel (done ++ rest) done.length =
      some (done ++ replaceScan old new 0 rest) := by
  induction fuel generalizing done rest with
  | zero => omega
  | succ f ih =>
    simp only [ReplacementNode.loop]
    rw [find_append]
    rcases scan_cases old new hold rest with ⟨h1, h2, _⟩ | ⟨pre, post, h1, h2, h3, h4⟩
    · simp [h1, h2]
    · rw [h1]
      simp only [Option.map]
      subst h2
      rw [replace_at, h3]
      have := ih (done ++ pre ++ new) post (by omega)
      rw [show pre.length + done.length + new.length = (done ++ pre ++ new).length by
        simp; omega]
      rw [this]
      simp

/-- The loop needs exactly one evaluation of its condition more than the number
of occurrences of the reference scan. -/
theorem ReplacementNode.loop_some_iff (old new : Str) (hold : old ≠ []) (fuel : Nat)
    (done rest : Str) :
    (∃ r, ReplacementNode.loop old new fuel (done ++ rest) done.length = some r) ↔
      countScan old 0 rest < fuel := by
  refine ⟨?_, fun h => ⟨_, ReplacementNode.loop_scan old new hold fuel done rest h⟩⟩
  induction fuel generalizing done rest with
  | zero => rintro ⟨r, h⟩; simp [ReplacementNode.loop] at h
  | succ f ih =>
    rintro ⟨r, h⟩
    simp only [ReplacementNode.loop] at h
    rw [find_append] at h
    rcases scan_cases old new hold rest with ⟨_, _, h3⟩ | ⟨pre, post, h1, h2, _, h4⟩
    · omega
    · rw [h1] at h
      simp only [Option.map] at h
      subst h2
      rw [replace_at] at h
      rw [show pre.length + done.length + new.length = (done ++ pre ++ new).length by
        simp; omega] at h
      have := ih (done ++ pre ++ new) post ⟨r, h⟩
      omega

theorem scan_length (old new : Str) (hold : old ≠ []) (n : Nat) (rest : Str)
    (hn : rest.length ≤ n) :
    (replaceScan old new 0 rest).length + countScan old 0 rest * old.length =
      rest.length + countScan old 0 rest * new.length := by
  induction n generalizing rest with
  | zero =>
    have : rest = [] := List.length_eq_zero.mp (by omega)
    subst this
    simp [replaceScan, countScan]
  | succ n ih =>
    rcases scan_cases old new hold rest with ⟨_, h2, h3⟩ | ⟨pre, post, _, h2, h3, h4⟩
    · rw [h2, h3]; simp
    · have hpos : 0 < old.length := List.length_pos.mpr hold
      have hlen : post.length ≤ n := by
        rw [h2] at hn; simp at hn; omega
      have := ih post hlen
      rw [h3, h4, h2]
      simp only [List.length_append, Nat.add_mul, Nat.one_mul]
      omega

theorem scan_count_le (old new : Str) (hold : old ≠ []) (n : Nat) (rest : Str)
    (hn : rest.length ≤ n) : countScan old 0 rest * old.length ≤ rest.length := by
  induction n generalizing rest with
  | zero =>
    have : rest = [] := List.length_eq_zero.mp (by omega)
    subst this
    simp [countScan]
  | succ n ih =>
    rcases scan_cases old new hold rest with ⟨_, _, h3⟩ | ⟨pre, post, _, h2, _, h4⟩
    · rw [h3]; simp
    · have hpos : 0 < old.length := List.length_pos.mpr hold
      have hlen : post.length ≤ n := by
        rw [h2] at hn; simp at hn; omega
      have := ih post hlen
      rw [h4, h2]
      simp only [List.length_append, Nat.add_mul, Nat.one_mul]
      omega

theorem countScan_le_div (old new : Str) (hold : old ≠ []) (input : Str) :
    countScan old 0 input ≤ input.length / old.length :=
  (Nat.le_div_iff_mul_le (List.length_pos.mpr hold)).mpr
    (scan_count_le old new hold _ input (Nat.le_refl _))

/-- A result the limited loop returns is the result of the loop without limit. -/
theorem ReplacementNode.loopWithin_returned (cap : Nat) (old new : Str) (fuel : Nat)
    (result : Str) (pos : Nat) (r : Str)
    (h : ReplacementNode.loopWithin cap old new fuel result pos = some (.returned r)) :
    ReplacementNode.loop old new fuel result pos = some r := by
  induction fuel generalizing result pos with
  | zero => simp [ReplacementNode.loopWithin] at h
  | succ f ih =>
    simp only [ReplacementNode.loopWithin] at h
    simp only [ReplacementNode.loop]
    cases hf : find result old pos with
    | none =>
      rw [hf] at h
      simp only [Option.some.injEq, LoopExit.returned.injEq] at h
      simp [h]
    | some p =>
      rw [hf] at h
      simp only at h ⊢
      by_cases hc : result.length - min old.length (result.length - p) + new.length > cap
      · simp [replaceWithin, hc] at h
      · simp only [replaceWithin, if_neg hc] at h
        exact ih _ _ h

/-- While no size exceeds the limit the limited loop is the loop without limit:
with a non-empty `old` the sizes lie between those of the input and of the final
result. -/
theorem ReplacementNode.loopWithin_scan (cap : Nat) (old new : Str) (hold : old ≠ [])
    (fuel : Nat) (done rest : Str) (hfuel : countScan old 0 rest < fuel)
    (h1 : (done ++ rest).length ≤ cap)
    (h2 : (done ++ replaceScan old new 0 rest).length ≤ cap) :
    ReplacementNode.loopWithin cap old new fuel (done ++ rest) done.length =
      some (.returned (done ++ replaceScan old new 0 rest)) := by
  induction fuel generalizing done rest with
  | zero => omega
  | succ f ih =>
    simp only [ReplacementNode.loopWithin]
    rw [find_append]
    rcases scan_cases old new hold rest with ⟨h3, h4, _⟩ | ⟨pre, post, h3, h4, h5, h6⟩
    · simp [h3, h4]
    · rw [h3]
      simp only [Option.map]
      subst h4
      have hsl := scan_length old new hold post.length post (le_refl _)
      have hfit : (done ++ pre ++ new ++ post).length ≤ cap := by
        rw [h5] at h2
        simp only [List.length_append] at h1 h2 hsl ⊢
        by_cases hc : new.length ≤ old.length
        · omega
        · have : countScan old 0 post * old.length ≤ countScan old 0 post * new.length :=
            Nat.mul_le_mul_left _ (by omega)
          omega
      have hrw : replaceWithin cap (done ++ (pre ++ old ++ post)) (pre.length + done.length)
          old.length new = some ((done ++ pre ++ new) ++ post) := by
        unfold replaceWithin
        rw [replace_at, if_neg]
        simp only [List.length_append] at hfit ⊢
        omega
      rw [hrw]
      simp only
      rw [show pre.length + done.length + new.length = (done ++ pre ++ new).length by
        simp; omega]
      rw [ih (done ++ pre ++ new) post (by omega) hfit (by rw [h5] at h2; simpa using h2), h5]
      simp

/-- With a non-empty `old` the limited loop has ended, by returning or by
throwing, once its condition has been evaluated more often than the reference
scan finds occurrences. -/
theorem ReplacementNode.loopWithin_ends (cap : Nat) (old new : Str) (hold : old ≠ [])
    (fuel : Nat) (done rest : Str) (hfuel : countScan old 0 rest < fuel) :
    ∃ e, ReplacementNode.loopWithin cap old new fuel (done ++ rest) done.length = some e := by
  induction fuel generalizing done rest with
  | zero => omega
  | succ f ih =>
    simp only [ReplacementNode.loopWithin]
    rw [find_append]
    rcases scan_cases old new hold rest with ⟨h3, _, _⟩ | ⟨pre, post, h3, h4, _, h6⟩
    · simp [h3]
    · rw [h3]
      simp only [Option.map]
      subst h4
      by_cases hc : (done ++ (pre ++ old ++ post)).length -
          min old.length ((done ++ (pre ++ old ++ post)).length - (pre.length + done.length)) +
          new.length > cap
      · exact ⟨.threw, by simp only [replaceWithin, if_pos hc]⟩
      · simp only [replaceWithin, if_neg hc]
        rw [replace_at]
        rw [show pre.length + done.length + new.length = (done ++ pre ++ new).length by
          simp; omega]
        exact ih (done ++ pre ++ new) post (by omega)

/-- With an empty `old` and an empty `new` every pass leaves `result` and `pos`
as they are, so the loop never ends. -/
theorem ReplacementNode.loopWithin_nil_nil (cap fuel : Nat) (result : Str) (pos : Nat)
    (hpos : pos ≤ result.length) (hcap : result.length ≤ cap) :
    ReplacementNode.loopWithin cap [] [] fuel result pos = none := by
  induction fuel with
  | zero => rfl
  | succ f ih =>
    simp only [ReplacementNode.loopWithin, find_nil result pos hpos]
    have hr : replaceWithin cap result pos 0 [] = some result := by
      unfold replaceWithin
      rw [if_neg (by simp; omega)]
      simp [replace]
    simp only [List.length_nil, hr, Nat.add_zero]
    exact ih

/-- With an empty `old` and a non-empty `new` every pass inserts `new` at `pos`
and moves `pos` behind it, so `result` grows by `len new` per pass and
`pos <= size()` is kept; the loop is left by the exception of `replace` in the
pass in which the size would exceed the limit, pass number
`(cap - len result) / len new + 1`. -/
theorem ReplacementNode.loopWithin_nil_grow (cap : Nat) (new : Str) (hnew : new ≠ [])
    (fuel : Nat) (result : Str) (pos : Nat) (hpos : pos ≤ result.length)
    (hcap : result.length ≤ cap) :
    ReplacementNode.loopWithin cap [] new fuel result pos =
      if (cap - result.length) / new.length < fuel then some .threw else none := by
  have hpos' : 0 < new.length := List.length_pos.mpr hnew
  induction fuel generalizing result pos with
  | zero => simp [ReplacementNode.loopWithin]
  | succ f ih =>
    simp only [ReplacementNode.loopWithin, find_nil result pos hpos]
    by_cases hc : result.length + new.length > cap
    · have hr : replaceWithin cap result pos 0 new = none := by
        unfold replaceWithin
        rw [if_pos (by simp; omega)]
      have hd : (cap - result.length) / new.length = 0 :=
        Nat.div_eq_of_lt (by omega)
      simp [hr, hd]
    · have hr : replaceWithin cap result pos 0 new = some (replace result pos 0 new) := by
        unfold replaceWithin
        rw [if_neg (by simp; omega)]
      have hlen : (replace result pos 0 new).length = result.length + new.length := by
        simp only [replace, List.length_append, List.length_take, List.length_drop]
        omega
      simp only [List.length_nil, hr]
      rw [ih _ _ (by rw [hlen]; omega) (by rw [hlen]; omega), hlen]
      have hd : (cap - result.length) / new.length =
          (cap - (result.length + new.length)) / new.length + 1 := by
        rw [Nat.div_eq_sub_div hpos' (by omega)]
        congr 2
        omega
      rw [hd]
      simp

/-! ## The sweep -/

theorem ClearedFrom.refl (g : Graph) : ClearedFrom g g := ⟨rfl, fun _ => Or.inl rfl⟩

theorem ClearedFrom.invalidate {g h : Graph} (hcl : ClearedFrom g h) (k : Nat) :
    ClearedFrom g (h.modifyNode k Node.invalidateCache) := by
  refine ⟨by rw [modifyNode_length, hcl.1], fun j => ?_⟩
  simp only [Graph.getNode, modifyNode_getElem?]
  by_cases hkj : k = j
  · subst hkj
    simp only [if_true]
    rcases hcl.2 k with h1 | ⟨n, h1, h2⟩
    · simp only [Graph.getNode] at h1
      cases hg : g[k]? with
      | none => left; rw [h1, hg]; rfl
      | some n => right; exact ⟨n, rfl, by rw [h1, hg]; rfl⟩
    · simp only [Graph.getNode] at h1 h2
      right
      exact ⟨n, h1, by rw [h2]; rfl⟩
  · simp only [if_neg hkj]
    exact hcl.2 j

theorem ClearedFrom.kind {g h : Graph} (hcl : ClearedFrom g h) (j : Nat) :
    (h.getNode j).map Node.kind = (g.getNode j).map Node.kind := by
  rcases hcl.2 j with h1 | ⟨n, h1, h2⟩
  · rw [h1]
  · rw [h1, h2]; rfl

theorem depScan_true {h : Graph} {ds : List Nat} (hs : depScan h ds = some true) :
    ∃ d ∈ ds, ∃ m, h.getNode d = some m ∧ m.cached_result = none := by
  induction ds with
  | nil => simp [depScan] at hs
  | cons d ds ih =>
    simp only [depScan] at hs
    cases hd : h.getNode d with
    | none => simp [hd] at hs
    | some m =>
      simp only [hd] at hs
      by_cases hc : m.has_cache = true
      · simp only [hc, if_true] at hs
        obtain ⟨d', hd', hm⟩ := ih hs
        exact ⟨d', List.mem_cons_of_mem _ hd', hm⟩
      · refine ⟨d, List.mem_cons_self _ _, m, hd, ?_⟩
        simpa [Node.has_cache] using hc

/-- With valid indices the scan of the dependencies does not throw, and it ends
in `invalidateCache` exactly when a dependency has no cache. -/
theorem depScan_valid (h : Graph) (ds : List Nat) (hds : ∀ d ∈ ds, d < h.length) :
    (depScan h ds = some true ∧ ∃ d ∈ ds, ¬ CachedAt h d) ∨
      (depScan h ds = some false ∧ ∀ d ∈ ds, CachedAt h d) := by
  induction ds with
  | nil => exact Or.inr ⟨rfl, fun d hd => by simp at hd⟩
  | cons d ds ih =>
    have hd : d < h.length := hds d (List.mem_cons_self _ _)
    have hm : h.getNode d = some h[d] := List.getElem?_eq_getElem hd
    simp only [depScan, hm]
    by_cases hc : h[d].has_cache = true
    · simp only [hc, if_true]
      have hcd : CachedAt h d := ⟨h[d], hm, by
        simpa [Node.has_cache, Option.isSome_iff_ne_none] using hc⟩
      rcases ih (fun x hx => hds x (List.mem_cons_of_mem _ hx)) with ⟨h1, x, hx, hnx⟩ | ⟨h1, h2⟩
      · exact Or.inl ⟨h1, x, List.mem_cons_of_mem _ hx, hnx⟩
      · refine Or.inr ⟨h1, fun x hx => ?_⟩
        rcases List.mem_cons.mp hx with rfl | hx
        · exact hcd
        · exact h2 x hx
    · simp only [hc]
      refine Or.inl ⟨rfl, d, List.mem_cons_self _ _, ?_⟩
      rintro ⟨m, hm', hmc⟩
      rw [hm] at hm'
      injection hm' with hm'
      subst hm'
      exact hc (by simpa [Node.has_cache, Option.isSome_iff_ne_none] using hmc)

theorem CachedAt.index_lt {g : Graph} {j : Nat} (h : CachedAt g j) : j < g.length := by
  obtain ⟨m, hm, _⟩ := h
  exact (List.getElem?_eq_some_iff.mp hm).1

theorem Settled.node_lt {g : Graph} {j : Nat} (h : Settled g j) : j < g.length := by
  obtain ⟨⟨m, hm, _⟩, _⟩ := h
  exact (List.getElem?_eq_some_iff.mp hm).1

theorem Settled.dep {g : Graph} {j d : Nat} {n m : Node} (hj : Settled g j)
    (hn : g.getNode j = some n) (hd : d ∈ n.getDependencies) (hm : g.getNode d = some m) :
    Settled g d :=
  ⟨⟨m, hm, hj.2 d m (.direct hn hd) hm⟩,
    fun k mk hk hmk => hj.2 k mk (.step hn hd hk) hmk⟩

theorem Settled.of_deps {g : Graph} {k : Nat} {n : Node} (hn : g.getNode k = some n)
    (hc : n.cached_result ≠ none) (hdeps : ∀ d ∈ n.getDependencies, Settled g d) :
    Settled g k := by
  refine ⟨⟨n, hn, hc⟩, fun x m hx hm => ?_⟩
  cases hx with
  | direct hn' hd =>
    rw [hn] at hn'
    injection hn' with hn'
    subst hn'
    obtain ⟨⟨m', hm', hc'⟩, _⟩ := hdeps x hd
    rw [hm] at hm'
    injection hm' with hm'
    subst hm'
    exact hc'
  | step hn' hd hrest =>
    rw [hn] at hn'
    injection hn' with hn'
    subst hn'
    exact (hdeps _ hd).2 x m hrest hm

theorem Settled.dependsOn {g : Graph} {j x : Nat} (hj : Settled g j) (hx : DependsOn g j x)
    {m : Node} (hm : g.getNode x = some m) : Settled g x :=
  ⟨⟨m, hm, hj.2 x m hx hm⟩, fun y my hy hmy => by
    have hjy : DependsOn g j y := by
      clear hm hj
      induction hx with
      | direct hn hd => exact .step hn hd hy
      | step hn hd _ ih => exact .step hn hd (ih hy)
    exact hj.2 y my hjy hmy⟩

theorem DependsOn.transfer {g h : Graph}
    (hk : ∀ j, (h.getNode j).map Node.kind = (g.getNode j).map Node.kind) {a b : Nat}
    (hab : DependsOn h a b) : DependsOn g a b := by
  have key : ∀ {i : Nat} {n : Node}, h.getNode i = some n →
      ∃ n', g.getNode i = some n' ∧ n'.getDependencies = n.getDependencies := by
    intro i n hn
    have := hk i
    rw [hn] at this
    cases hg : g.getNode i with
    | none => rw [hg] at this; cases this
    | some n' =>
      rw [hg] at this
      simp only [Option.map_some', Option.some.injEq] at this
      exact ⟨n', rfl, by unfold Node.getDependencies; rw [this]⟩
  induction hab with
  | direct hn hd =>
    obtain ⟨n', hn', hdeps⟩ := key hn
    exact .direct hn' (hdeps ▸ hd)
  | step hn hd _ ih =>
    obtain ⟨n', hn', hdeps⟩ := key hn
    exact .step hn' (hdeps ▸ hd) ih

theorem TopoOrdered.transfer_kinds {g h : Graph}
    (hk : ∀ j, (h.getNode j).map Node.kind = (g.getNode j).map Node.kind)
    (htopo : TopoOrdered g) : TopoOrdered h := by
  intro i n hn d hd
  have := hk i
  rw [hn] at this
  cases hg : g.getNode i with
  | none => rw [hg] at this; cases this
  | some n' =>
    rw [hg] at this
    simp only [Option.map_some', Option.some.injEq] at this
    exact htopo i n' hg d (by unfold Node.getDependencies at hd ⊢; rw [← this]; exact hd)

theorem NoSubstring.transfer_noSub {g h : Graph}
    (hk : ∀ j, (h.getNode j).map Node.kind = (g.getNode j).map Node.kind)
    (hns : NoSubstring g) : NoSubstring h := by
  intro n hn i s e hkind
  obtain ⟨j, hj, hjn⟩ := List.getElem_of_mem hn
  have hjn' : h.getNode j = some n := by
    simp only [Graph.getNode]; rw [List.getElem?_eq_getElem hj, hjn]
  have := hk j
  rw [hjn'] at this
  cases hg : g.getNode j with
  | none => rw [hg] at this; cases this
  | some n' =>
    rw [hg] at this
    simp only [Option.map_some', Option.some.injEq] at this
    exact hns n' (List.getElem?_mem hg) i s e (by rw [← this]; exact hkind)

theorem Node.invalidateCache_of_none {n : Node} (h : n.cached_result = none) :
    n.invalidateCache = n := by
  cases n with
  | mk c k =>
    simp only at h
    subst h
    rfl

/-- The loop over the nodes only clears slots, and never the slot of a settled
node. -/
theorem sweepNodes_inv (g : Graph) (ks : List Nat) (h : Graph) (hcl : ClearedFrom g h)
    (hS : ∀ j, Settled g j → h.getNode j = g.getNode j) :
    ClearedFrom g (sweepNodes ks h).1 ∧
      ∀ j, Settled g j → (sweepNodes ks h).1.getNode j = g.getNode j := by
  induction ks generalizing h with
  | nil => exact ⟨hcl, hS⟩
  | cons k ks ih =>
    simp only [sweepNodes]
    cases hk : h.getNode k with
    | none => exact ih h hcl hS
    | some n =>
      simp only []
      by_cases hc : n.has_cache = true
      · simp only [hc, if_true]
        cases hscan : depScan h n.getDependencies with
        | none => exact ⟨hcl, hS⟩
        | some b =>
          cases b with
          | false => exact ih h hcl hS
          | true =>
            refine ih _ (hcl.invalidate k) fun j hj => ?_
            have hkj : k ≠ j := by
              rintro rfl
              obtain ⟨d, hd, m, hm, hmc⟩ := depScan_true hscan
              have hgk : g.getNode k = some n := by rw [← hS k hj]; exact hk
              have hdlt : d < g.length := by
                rw [← hcl.1]; exact (List.getElem?_eq_some_iff.mp hm).1
              have hgd : g.getNode d = some g[d] := List.getElem?_eq_getElem hdlt
              have hsd : Settled g d := hj.dep hgk hd hgd
              have := hS d hsd
              rw [hm, hgd] at this
              injection this with this
              exact hj.2 d g[d] (.direct hgk hd) hgd (by rw [← this]; exact hmc)
            simp only [Graph.getNode, modifyNode_getElem?, if_neg hkj]
            exact hS j hj
      · simp only [hc]
        exact ih h hcl hS

/-- The loop over the nodes `k, k + 1, ...` of a graph in topological order, from
a state in which the nodes below `k` are cached exactly when they were settled at
entry and the others are untouched: it does not throw, and it ends with exactly
the nodes settled at entry cached. -/
theorem sweepNodes_topo (g : Graph) (htopo : TopoOrdered g) (m k : Nat) (h : Graph)
    (hkm : k + m = g.length) (hcl : ClearedFrom g h)
    (hlow : ∀ j, j < k → (CachedAt h j ↔ Settled g j))
    (hhigh : ∀ j, k ≤ j → h.getNode j = g.getNode j) :
    (sweepNodes (List.range' k m) h).2 = .returned ∧
      ClearedFrom g (sweepNodes (List.range' k m) h).1 ∧
      ∀ j, CachedAt (sweepNodes (List.range' k m) h).1 j ↔ Settled g j := by
  induction m generalizing k h with
  | zero =>
    refine ⟨rfl, hcl, fun j => ?_⟩
    show CachedAt h j ↔ Settled g j
    by_cases hj : j < k
    · exact hlow j hj
    · constructor
      · intro hc
        have := hc.index_lt
        rw [hcl.1] at this
        omega
      · intro hs
        have := hs.node_lt
        omega
  | succ m ih =>
    have hk : k < g.length := by omega
    have hgk : g.getNode k = some g[k] := List.getElem?_eq_getElem hk
    have hhk : h.getNode k = some g[k] := by rw [hhigh k (Nat.le_refl k)]; exact hgk
    have hdeps : ∀ d ∈ g[k].getDependencies, d < k := htopo k g[k] hgk
    rw [List.range'_succ]
    simp only [sweepNodes, hhk]
    have hkeep : (∀ j, j < k + 1 → (CachedAt h j ↔ Settled g j)) →
        (sweepNodes (List.range' (k + 1) m) h).2 = .returned ∧
          ClearedFrom g (sweepNodes (List.range' (k + 1) m) h).1 ∧
          ∀ j, CachedAt (sweepNodes (List.range' (k + 1) m) h).1 j ↔ Settled g j :=
      fun hl => ih (k + 1) h (by omega) hcl hl fun j hj => hhigh j (by omega)
    by_cases hc : g[k].has_cache = true
    · simp only [hc, if_true]
      have hcn : g[k].cached_result ≠ none := by
        simpa [Node.has_cache, Option.isSome_iff_ne_none] using hc
      rcases depScan_valid h g[k].getDependencies
          (fun d hd => by rw [hcl.1]; exact Nat.lt_trans (hdeps d hd) hk) with
        ⟨hs, d, hd, hnd⟩ | ⟨hs, hall⟩
      · simp only [hs]
        have hmod : ∀ j, j ≠ k → (h.modifyNode k Node.invalidateCache).getNode j =
            h.getNode j := by
          intro j hj
          simp only [Graph.getNode]
          rw [modifyNode_getElem?, if_neg (Ne.symm hj)]
        refine ih (k + 1) _ (by omega) (hcl.invalidate k) (fun j hj => ?_) fun j hj => ?_
        · by_cases hjk : j = k
          · subst hjk
            constructor
            · rintro ⟨x, hx, hxc⟩
              simp only [Graph.getNode] at hx hhk
              rw [modifyNode_getElem?, if_pos rfl, hhk] at hx
              simp only [Option.map_some', Option.some.injEq] at hx
              subst hx
              exact absurd rfl hxc
            · intro hset
              have hdl : d < g.length := Nat.lt_trans (hdeps d hd) hk
              have hsd : Settled g d :=
                hset.dep hgk hd (List.getElem?_eq_getElem hdl)
              exact absurd ((hlow d (hdeps d hd)).mpr hsd) hnd
          · have hlt : j < k := by omega
            unfold CachedAt
            rw [hmod j hjk]
            exact hlow j hlt
        · rw [hmod j (by omega)]
          exact hhigh j (by omega)
      · simp only [hs]
        refine hkeep fun j hj => ?_
        by_cases hjk : j = k
        · subst hjk
          exact ⟨fun _ => Settled.of_deps hgk hcn fun d hd =>
            (hlow d (hdeps d hd)).mp (hall d hd), fun _ => ⟨g[j], hhk, hcn⟩⟩
        · exact hlow j (by omega)
    · simp only [hc]
      refine hkeep fun j hj => ?_
      by_cases hjk : j = k
      · subst hjk
        have hcn : g[j].cached_result = none := by
          simpa [Node.has_cache] using hc
        constructor
        · rintro ⟨x, hx, hxc⟩
          rw [hhk] at hx
          injection hx with hx
          subst hx
          exact absurd hcn hxc
        · rintro ⟨⟨x, hx, hxc⟩, _⟩
          rw [hgk] at hx
          injection hx with hx
          subst hx
          exact absurd hcn hxc
      · exact hlow j (by omega)

theorem checkInvalidateCache_topo (g : Graph) (htopo : TopoOrdered g) :
    (Graph.checkInvalidateCache g).2 = .returned ∧
      ClearedFrom g (Graph.checkInvalidateCache g).1 ∧
      ∀ j, CachedAt (Graph.checkInvalidateCache g).1 j ↔ Settled g j := by
  unfold Graph.checkInvalidateCache
  rw [List.range_eq_range']
  exact sweepNodes_topo g htopo g.length 0 g (by omega) (ClearedFrom.refl g)
    (fun j hj => by omega) fun _ _ => rfl

/-- After the sweep of a graph in topological order every cached node is settled
in the new state. -/
theorem checkInvalidateCache_settled (g : Graph) (htopo : TopoOrdered g) (j : Nat)
    (hj : CachedAt (Graph.checkInvalidateCache g).1 j) :
    Settled (Graph.checkInvalidateCache g).1 j := by
  obtain ⟨_, hcl, hiff⟩ := checkInvalidateCache_topo g htopo
  obtain ⟨n, hn, hc⟩ := hj
  refine ⟨⟨n, hn, hc⟩, fun x m hx hm => ?_⟩
  have hgx : DependsOn g j x := hx.transfer hcl.kind
  have hxl : x < g.length := by
    rw [← hcl.1]; exact (List.getElem?_eq_some_iff.mp hm).1
  have hsx : Settled g x :=
    ((hiff j).mp ⟨n, hn, hc⟩).dependsOn hgx (List.getElem?_eq_getElem hxl)
  obtain ⟨m', hm', hc'⟩ := (hiff x).mpr hsx
  rw [hm] at hm'
  injection hm' with hm'
  subst hm'
  exact hc'

/-- A sweep changes nothing in a state in which every cached node is settled. -/
theorem sweep_fixpoint (h : Graph) (htopo : TopoOrdered h)
    (hset : ∀ j, CachedAt h j → Settled h j) :
    Graph.checkInvalidateCache h = (h, .returned) := by
  obtain ⟨hret, hcl, hiff⟩ := checkInvalidateCache_topo h htopo
  have heq : (Graph.checkInvalidateCache h).1 = h := by
    apply List.ext_getElem?
    intro j
    rcases hcl.2 j with h1 | ⟨n, h1, h2⟩
    · exact h1
    · simp only [Graph.getNode] at h1 h2
      rw [h1, h2]
      by_cases hc : n.cached_result = none
      · rw [Node.invalidateCache_of_none hc]
      · exfalso
        obtain ⟨m, hm, hmc⟩ := (hiff j).mpr (hset j ⟨n, h1, hc⟩)
        simp only [Graph.getNode] at hm
        rw [h2] at hm
        injection hm with hm
        subst hm
        exact hmc rfl
  exact Prod.ext heq hret

/-! ## Cache-free evaluation: budget, totality, locality -/

theorem Res.bind_ok {r : Res} {k : Str → Res} {s : Str} :
    r.bind k = .ok s ↔ ∃ v, r = .ok v ∧ k v = .ok s := by
  cases r <;> simp [Res.bind]

theorem ReplacementNode.loop_mono (old new : Str) {f f' : Nat} (hf : f ≤ f') {r : Str}
    {p : Nat} {x : Str} (h : ReplacementNode.loop old new f r p = some x) :
    ReplacementNode.loop old new f' r p = some x := by
  induction f generalizing f' r p with
  | zero => simp [ReplacementNode.loop] at h
  | succ f ih =>
    obtain ⟨f'', rfl⟩ : ∃ f'', f' = f'' + 1 := ⟨f' - 1, by omega⟩
    simp only [ReplacementNode.loop] at h ⊢
    cases hfind : find r old p with
    | none => simpa [hfind] using h
    | some q =>
      simp only [hfind] at h ⊢
      exact ih (by omega) h

theorem ReplacementNode.result_mono {f f' : Nat} (hf : f ≤ f') {input old new s : Str}
    (h : ReplacementNode.result f input old new = .ok s) :
    ReplacementNode.result f' input old new = .ok s := by
  unfold ReplacementNode.result at h ⊢
  cases hl : ReplacementNode.loop old new f input 0 with
  | none => simp [hl] at h
  | some r =>
    rw [ReplacementNode.loop_mono old new hf hl]
    simpa [hl] using h

theorem concatValues_mono {val val' : Nat → Res}
    (hval : ∀ j v, val j = .ok v → val' j = .ok v) (cs : List Nat) (acc s : Str)
    (h : concatValues val cs acc = .ok s) : concatValues val' cs acc = .ok s := by
  induction cs generalizing acc with
  | nil => exact h
  | cons c cs ih =>
    simp only [concatValues, Res.bind_ok] at h ⊢
    obtain ⟨v, hv, h⟩ := h
    exact ⟨v, hval c v hv, ih _ h⟩

theorem variantSemantics_mono {f f' : Nat} (hf : f ≤ f') {val val' : Nat → Res}
    (hval : ∀ j v, val j = .ok v → val' j = .ok v) (k : Kind) (s : Str)
    (h : variantSemantics f val k = .ok s) : variantSemantics f' val' k = .ok s := by
  cases k with
  | constant v => exact h
  | concatenation cs => exact concatValues_mono hval cs [] s h
  | substring i st e =>
    simp only [variantSemantics, Res.bind_ok] at h ⊢
    obtain ⟨v, hv, h⟩ := h
    exact ⟨v, hval i v hv, h⟩
  | replacement i o n =>
    simp only [variantSemantics, Res.bind_ok] at h ⊢
    obtain ⟨v1, hv1, v2, hv2, v3, hv3, h⟩ := h
    exact ⟨v1, hval i v1 hv1, v2, hval o v2 hv2, v3, hval n v3 hv3,
      ReplacementNode.result_mono hf h⟩
  | patternMatching i q =>
    simp only [variantSemantics, Res.bind_ok] at h ⊢
    obtain ⟨v1, hv1, v2, hv2, h⟩ := h
    exact ⟨v1, hval i v1 hv1, v2, hval q v2 hv2, h⟩
  | caseConversion i t =>
    simp only [variantSemantics, Res.bind_ok] at h ⊢
    obtain ⟨v, hv, h⟩ := h
    exact ⟨v, hval i v hv, h⟩
  | lengthCalculation i =>
    simp only [variantSemantics, Res.bind_ok] at h ⊢
    obtain ⟨v, hv, h⟩ := h
    exact ⟨v, hval i v hv, h⟩

theorem pureEval_succ (f : Nat) (g : Graph) (i : Nat) (s : Str)
    (h : pureEval f g i = .ok s) : pureEval (f + 1) g i = .ok s := by
  induction f generalizing i s with
  | zero => simp [pureEval] at h
  | succ f ih =>
    rw [pureEval] at h ⊢
    cases hn : g.getNode i with
    | none => simp [hn] at h
    | some n =>
      simp only [hn] at h ⊢
      exact variantSemantics_mono (Nat.le_succ _) (fun j v hv => ih j v hv) n.kind s h

theorem pureEval_mono {f f' : Nat} (hf : f ≤ f') (g : Graph) (i : Nat) (s : Str)
    (h : pureEval f g i = .ok s) : pureEval f' g i = .ok s := by
  induction hf with
  | refl => exact h
  | step _ ih => exact pureEval_succ _ g i s ih

/-- Cache-free evaluation has one value, whatever the budget. -/
theorem pureEval_det {f f' : Nat} {g : Graph} {i : Nat} {s s' : Str}
    (h : pureEval f g i = .ok s) (h' : pureEval f' g i = .ok s') : s = s' := by
  have h1 := pureEval_mono (Nat.le_max_left f f') g i s h
  have h2 := pureEval_mono (Nat.le_max_right f f') g i s' h'
  rw [h1] at h2
  injection h2

theorem concatValues_congr {val val' : Nat → Res} (cs : List Nat)
    (h : ∀ d ∈ cs, val d = val' d) (acc : Str) :
    concatValues val cs acc = concatValues val' cs acc := by
  induction cs generalizing acc with
  | nil => rfl
  | cons c cs ih =>
    simp only [concatValues]
    rw [h c (List.mem_cons_self _ _)]
    congr 1
    funext s
    exact ih (fun d hd => h d (List.mem_cons_of_mem _ hd)) _

/-- The semantics of a node class only looks at the values of its dependencies. -/
theorem variantSemantics_congr (F : Nat) {val val' : Nat → Res} (k : Kind)
    (h : ∀ d ∈ k.getDependencies, val d = val' d) :
    variantSemantics F val k = variantSemantics F val' k := by
  cases k with
  | constant v => rfl
  | concatenation cs => exact concatValues_congr cs h []
  | substring i s e =>
    simp only [variantSemantics]
    rw [h i (by simp [Kind.getDependencies])]
  | replacement i o n =>
    simp only [variantSemantics]
    rw [h i (by simp [Kind.getDependencies]), h o (by simp [Kind.getDependencies]),
      h n (by simp [Kind.getDependencies])]
  | patternMatching i q =>
    simp only [variantSemantics]
    rw [h i (by simp [Kind.getDependencies]), h q (by simp [Kind.getDependencies])]
  | caseConversion i t =>
    simp only [variantSemantics]
    rw [h i (by simp [Kind.getDependencies])]
  | lengthCalculation i =>
    simp only [variantSemantics]
    rw [h i (by simp [Kind.getDependencies])]

/-- Cache-free evaluation of node `j` only looks at the fields of `j` and of the
nodes reachable from it. -/
theorem pureEval_congr (g h : Graph) (f : Nat) (j : Nat)
    (hk : ∀ k, (k = j ∨ DependsOn h j k) →
      (g.getNode k).map Node.kind = (h.getNode k).map Node.kind) :
    pureEval f g j = pureEval f h j := by
  induction f generalizing j with
  | zero => rfl
  | succ f ih =>
    rw [pureEval, pureEval]
    have hj := hk j (Or.inl rfl)
    cases hh : h.getNode j with
    | none =>
      rw [hh] at hj
      cases hg : g.getNode j with
      | none => rfl
      | some n => rw [hg] at hj; cases hj
    | some n =>
      rw [hh] at hj
      cases hg : g.getNode j with
      | none => rw [hg] at hj; cases hj
      | some n' =>
        rw [hg] at hj
        simp only [Option.map_some', Option.some.injEq] at hj
        simp only [hj]
        apply variantSemantics_congr
        intro d hd
        apply ih
        rintro k (rfl | hdk)
        · exact hk _ (Or.inr (.direct hh hd))
        · exact hk k (Or.inr (.step hh hd hdk))

theorem concatValues_ok_deps {val : Nat → Res} (cs : List Nat) (acc s : Str)
    (h : concatValues val cs acc = .ok s) : ∀ d ∈ cs, ∃ v, val d = .ok v := by
  induction cs generalizing acc with
  | nil => intro d hd; simp at hd
  | cons c cs ih =>
    simp only [concatValues, Res.bind_ok] at h
    obtain ⟨v, hv, hrest⟩ := h
    intro d hd
    rcases List.mem_cons.mp hd with rfl | hd
    · exact ⟨v, hv⟩
    · exact ih _ hrest d hd

/-- The semantics of a node class only yields a string when every dependency has
a value. -/
theorem variantSemantics_ok_deps {F : Nat} {val : Nat → Res} {k : Kind} {s : Str}
    (h : variantSemantics F val k = .ok s) : ∀ d ∈ k.getDependencies, ∃ v, val d = .ok v := by
  cases k with
  | constant v => intro d hd; simp [Kind.getDependencies] at hd
  | concatenation cs => exact concatValues_ok_deps cs [] s h
  | substring i st e =>
    simp only [variantSemantics, Res.bind_ok] at h
    obtain ⟨v, hv, _⟩ := h
    intro d hd
    simp only [Kind.getDependencies, List.mem_singleton] at hd
    subst hd
    exact ⟨v, hv⟩
  | replacement i o n =>
    simp only [variantSemantics, Res.bind_ok] at h
    obtain ⟨v1, hv1, v2, hv2, v3, hv3, _⟩ := h
    intro d hd
    simp only [Kind.getDependencies, List.mem_cons, List.mem_singleton, List.not_mem_nil,
      or_false] at hd
    rcases hd with rfl | rfl | rfl
    · exact ⟨v1, hv1⟩
    · exact ⟨v2, hv2⟩
    · exact ⟨v3, hv3⟩
  | patternMatching i q =>
    simp only [variantSemantics, Res.bind_ok] at h
    obtain ⟨v1, hv1, v2, hv2, _⟩ := h
    intro d hd
    simp only [Kind.getDependencies, List.mem_cons, List.mem_singleton, List.not_mem_nil,
      or_false] at hd
    rcases hd with rfl | rfl
    · exact ⟨v1, hv1⟩
    · exact ⟨v2, hv2⟩
  | caseConversion i t =>
    simp only [variantSemantics, Res.bind_ok] at h
    obtain ⟨v, hv, _⟩ := h
    intro d hd
    simp only [Kind.getDependencies, List.mem_singleton] at hd
    subst hd
    exact ⟨v, hv⟩
  | lengthCalculation i =>
    simp only [variantSemantics, Res.bind_ok] at h
    obtain ⟨v, hv, _⟩ := h
    intro d hd
    simp only [Kind.getDependencies, List.mem_singleton] at hd
    subst hd
    exact ⟨v, hv⟩

/-- When the cache-free evaluation of a node returns a string, the node and
every index reachable from it are inside the graph. -/
theorem pureEval_ok_valid {f : Nat} {g : Graph} {i : Nat} {s : Str}
    (h : pureEval f g i = .ok s) :
    i < g.length ∧ ∀ k, DependsOn g i k → k < g.length := by
  induction f generalizing i s with
  | zero => simp [pureEval] at h
  | succ f ih =>
    rw [pureEval] at h
    cases hn : g.getNode i with
    | none => simp [hn] at h
    | some n =>
      simp only [hn] at h
      have hdeps := variantSemantics_ok_deps h
      refine ⟨(List.getElem?_eq_some_iff.mp hn).1, fun k hk => ?_⟩
      cases hk with
      | direct hn' hd =>
        rw [hn] at hn'
        injection hn' with hn'
        subst hn'
        obtain ⟨v, hv⟩ := hdeps k hd
        exact (ih hv).1
      | step hn' hd hrest =>
        rw [hn] at hn'
        injection hn' with hn'
        subst hn'
        obtain ⟨v, hv⟩ := hdeps _ hd
        exact (ih hv).2 k hrest

/-! ## The code without cache against the specification -/

theorem Agrees.except {g0 g : Graph} (h : Agrees g0 g) (i : Nat) : AgreesExcept g0 g i :=
  ⟨h.1, fun j _ => h.2 j⟩

theorem AgreesExcept.modify {g0 g : Graph} {i : Nat} (h : AgreesExcept g0 g i)
    (f : Node → Node) : AgreesExcept g0 (g.modifyNode i f) i := by
  refine ⟨by rw [modifyNode_length, h.1], fun j hj => ?_⟩
  have := h.2 j hj
  unfold NodeAgrees Graph.getNode at this ⊢
  rw [modifyNode_getElem?, if_neg (Ne.symm hj)]
  exact this

theorem AgreesExcept.cache {g0 g : Graph} {i : Nat} {s : Str} (h : AgreesExcept g0 g i)
    (hs : ∃ f, pureEval f g0 i = .ok s) : Agrees g0 (g.modifyNode i (Node.setCache s)) := by
  refine ⟨by rw [modifyNode_length, h.1], fun j => ?_⟩
  by_cases hj : j = i
  · subst hj
    intro n hn
    simp only [Graph.getNode, modifyNode_getElem?, if_true] at hn
    cases hg : g[j]? with
    | none => simp [hg] at hn
    | some m =>
      simp only [hg, Option.map_some', Option.some.injEq] at hn
      subst hn
      refine ⟨fun v hv => ?_, fun hv => ?_⟩
      · simp only [Node.setCache, Option.some.injEq] at hv
        subst hv
        exact hs
      · simp [Node.setCache] at hv
  · exact ((h.modify (Node.setCache s)).2 j hj)

theorem Agrees.of_allEmpty {g : Graph} (h : AllEmpty g) : Agrees g g := by
  refine ⟨rfl, fun j n hn => ⟨fun v hv => ?_, fun _ => ⟨n, hn, rfl⟩⟩⟩
  have := h n (List.getElem?_mem hn)
  rw [this] at hv
  cases hv

theorem ConcatenationNode.loop_sound (g0 : Graph) (ev : Graph → Nat → Graph × Res)
    (hev : ∀ g j g' s, Agrees g0 g → ev g j = (g', .ok s) →
      Agrees g0 g' ∧ ∃ f', pureEval f' g0 j = .ok s)
    (cs : List Nat) (g : Graph) (acc : Str) (g1 : Graph) (s : Str) (hag : Agrees g0 g)
    (h : ConcatenationNode.loop ev cs g acc = (g1, .ok s)) :
    Agrees g0 g1 ∧ ∃ f', concatValues (pureEval f' g0) cs acc = .ok s := by
  induction cs generalizing g acc with
  | nil =>
    simp only [ConcatenationNode.loop, Prod.mk.injEq, Res.ok.injEq] at h
    obtain ⟨rfl, rfl⟩ := h
    exact ⟨hag, 0, rfl⟩
  | cons c cs ih =>
    simp only [ConcatenationNode.loop] at h
    obtain ⟨ga, v, hc, h⟩ := andThen_ok h
    obtain ⟨haga, fc, hfc⟩ := hev g c ga v hag hc
    obtain ⟨hag1, fr, hfr⟩ := ih ga (acc ++ v) haga h
    refine ⟨hag1, max fc fr, ?_⟩
    simp only [concatValues, Res.bind_ok]
    exact ⟨v, pureEval_mono (Nat.le_max_left _ _) g0 c v hfc,
      concatValues_mono (fun j w hw => pureEval_mono (Nat.le_max_right _ _) g0 j w hw)
        cs _ s hfr⟩

theorem eval_inner_sound (g0 : Graph) (F : Nat) (ev : Graph → Nat → Graph × Res)
    (hev : ∀ g j g' s, Agrees g0 g → ev g j = (g', .ok s) →
      Agrees g0 g' ∧ ∃ f', pureEval f' g0 j = .ok s)
    (self : Nat) (g : Graph) (k : Kind) (g1 : Graph) (s : Str) (hag : Agrees g0 g)
    (h : eval_inner F ev self g k = (g1, .ok s)) :
    AgreesExcept g0 g1 self ∧ ∃ f', variantSemantics (f' + 1) (pureEval f' g0) k = .ok s := by
  cases k with
  | constant v =>
    simp only [eval_inner, Prod.mk.injEq, Res.ok.injEq] at h
    obtain ⟨rfl, rfl⟩ := h
    exact ⟨hag.except self, 0, rfl⟩
  | concatenation cs =>
    obtain ⟨h1, f', h2⟩ := ConcatenationNode.loop_sound g0 ev hev cs g [] g1 s hag h
    exact ⟨h1.except self, f', h2⟩
  | substring i st e =>
    simp only [eval_inner] at h
    obtain ⟨ga, input, hi, h⟩ := andThen_ok h
    obtain ⟨haga, f', hf'⟩ := hev g i ga input hag hi
    have hres : AgreesExcept g0 g1 self ∧ s = SubstringNode.result st e input := by
      split at h
      · rename_i hge
        simp only [Prod.mk.injEq, Res.ok.injEq] at h
        obtain ⟨rfl, rfl⟩ := h
        exact ⟨haga.except self, by simp [SubstringNode.result, hge]⟩
      · split at h
        · simp only [Prod.mk.injEq, Res.ok.injEq] at h
          obtain ⟨rfl, rfl⟩ := h
          exact ⟨(haga.except self).modify _, rfl⟩
        · simp only [Prod.mk.injEq, Res.ok.injEq] at h
          obtain ⟨rfl, rfl⟩ := h
          exact ⟨haga.except self, rfl⟩
    refine ⟨hres.1, f', ?_⟩
    simp only [variantSemantics, Res.bind_ok]
    exact ⟨input, hf', by rw [hres.2]⟩
  | replacement i o n =>
    simp only [eval_inner] at h
    obtain ⟨ga, input, hi, ha⟩ := andThen_ok h
    obtain ⟨gb, old, ho, hb⟩ := andThen_ok ha
    obtain ⟨gc, new, hn, hc⟩ := andThen_ok hb
    simp only [Prod.mk.injEq] at hc
    obtain ⟨rfl, hr⟩ := hc
    obtain ⟨haga, f1, hf1⟩ := hev g i ga input hag hi
    obtain ⟨hagb, f2, hf2⟩ := hev ga o gb old haga ho
    obtain ⟨hagc, f3, hf3⟩ := hev gb n gc new hagb hn
    refine ⟨hagc.except self, max (max f1 f2) (max f3 F), ?_⟩
    simp only [variantSemantics, Res.bind_ok]
    exact ⟨input, pureEval_mono (by omega) g0 i input hf1,
      old, pureEval_mono (by omega) g0 o old hf2,
      new, pureEval_mono (by omega) g0 n new hf3,
      ReplacementNode.result_mono (by omega) hr⟩
  | patternMatching i q =>
    simp only [eval_inner] at h
    obtain ⟨ga, input, hi, ha⟩ := andThen_ok h
    obtain ⟨gb, pat, hq, hb⟩ := andThen_ok ha
    simp only [Prod.mk.injEq, Res.ok.injEq] at hb
    obtain ⟨rfl, rfl⟩ := hb
    obtain ⟨haga, f1, hf1⟩ := hev g i ga input hag hi
    obtain ⟨hagb, f2, hf2⟩ := hev ga q gb pat haga hq
    refine ⟨hagb.except self, max f1 f2, ?_⟩
    simp only [variantSemantics, Res.bind_ok]
    exact ⟨input, pureEval_mono (by omega) g0 i input hf1,
      pat, pureEval_mono (by omega) g0 q pat hf2, rfl⟩
  | caseConversion i t =>
    simp only [eval_inner] at h
    obtain ⟨ga, input, hi, h⟩ := andThen_ok h
    simp only [Prod.mk.injEq, Res.ok.injEq] at h
    obtain ⟨rfl, rfl⟩ := h
    obtain ⟨haga, f1, hf1⟩ := hev g i ga input hag hi
    refine ⟨haga.except self, f1, ?_⟩
    simp only [variantSemantics, Res.bind_ok]
    exact ⟨input, hf1, rfl⟩
  | lengthCalculation i =>
    simp only [eval_inner] at h
    obtain ⟨ga, input, hi, h⟩ := andThen_ok h
    simp only [Prod.mk.injEq, Res.ok.injEq] at h
    obtain ⟨rfl, rfl⟩ := h
    obtain ⟨haga, f1, hf1⟩ := hev g i ga input hag hi
    refine ⟨haga.except self, f1, ?_⟩
    simp only [variantSemantics, Res.bind_ok]
    exact ⟨input, hf1, rfl⟩

/-- Soundness of memoised evaluation: from a state that agrees with `g0`, a call
that returns `s` leaves a state that agrees with `g0`, and `s` is the cache-free
value of the node. -/
theorem Node.eval_sound (g0 : Graph) (f : Nat) (g : Graph) (i : Nat) (g' : Graph) (s : Str)
    (hag : Agrees g0 g) (h : Node.eval f g i = (g', .ok s)) :
    Agrees g0 g' ∧ ∃ f', pureEval f' g0 i = .ok s := by
  induction f generalizing g i g' s with
  | zero =>
    obtain ⟨n, hn, ⟨hc, rfl⟩ | ⟨_, f, _, hf, _⟩⟩ := Node.eval_ok h
    · exact ⟨hag, (hag.2 i n hn).1 s hc⟩
    · omega
  | succ f ih =>
    obtain ⟨n, hn, ⟨hc, rfl⟩ | ⟨hc, f1, g1, hf, h1, rfl⟩⟩ := Node.eval_ok h
    · exact ⟨hag, (hag.2 i n hn).1 s hc⟩
    · obtain rfl : f1 = f := by omega
      obtain ⟨n0, hn0, hk⟩ := (hag.2 i n hn).2 hc
      obtain ⟨hex, f', hf'⟩ := eval_inner_sound g0 (f1 + 1) (Node.eval f1)
        (fun g j g' s hg hj => ih g j g' s hg hj) i g n.kind g1 s hag h1
      have hp : pureEval (f' + 1) g0 i = .ok s := by
        rw [pureEval]
        simp only [hn0, hk]
        exact hf'
      exact ⟨hex.cache ⟨_, hp⟩, _, hp⟩

theorem ConcatenationNode.loop_complete (g0 : Graph) (ev : Graph → Nat → Graph × Res)
    (val : Nat → Res)
    (hev : ∀ g j g' s, Agrees g0 g → ev g j = (g', .ok s) →
      Agrees g0 g' ∧ ∃ f', pureEval f' g0 j = .ok s)
    (hval : ∀ g j s, Agrees g0 g → val j = .ok s → ∃ g', ev g j = (g', .ok s))
    (cs : List Nat) (g : Graph) (acc s : Str) (hag : Agrees g0 g)
    (h : concatValues val cs acc = .ok s) :
    ∃ g1, ConcatenationNode.loop ev cs g acc = (g1, .ok s) := by
  induction cs generalizing g acc with
  | nil =>
    simp only [concatValues, Res.ok.injEq] at h
    exact ⟨g, by simp [ConcatenationNode.loop, h]⟩
  | cons c cs ih =>
    simp only [concatValues, Res.bind_ok] at h
    obtain ⟨v, hv, hrest⟩ := h
    obtain ⟨ga, hga⟩ := hval g c v hag hv
    obtain ⟨g1, hg1⟩ := ih ga (acc ++ v) (hev g c ga v hag hga).1 hrest
    exact ⟨g1, by simp [ConcatenationNode.loop, hga, andThen, hg1]⟩

theorem eval_inner_complete (g0 : Graph) (F : Nat) (ev : Graph → Nat → Graph × Res)
    (val : Nat → Res)
    (hev : ∀ g j g' s, Agrees g0 g → ev g j = (g', .ok s) →
      Agrees g0 g' ∧ ∃ f', pureEval f' g0 j = .ok s)
    (hval : ∀ g j s, Agrees g0 g → val j = .ok s → ∃ g', ev g j = (g', .ok s))
    (self : Nat) (g : Graph) (k : Kind) (s : Str) (hag : Agrees g0 g)
    (h : variantSemantics F val k = .ok s) :
    ∃ g1, eval_inner F ev self g k = (g1, .ok s) := by
  cases k with
  | constant v =>
    simp only [variantSemantics, Res.ok.injEq] at h
    exact ⟨g, by simp [eval_inner, h]⟩
  | concatenation cs =>
    exact ConcatenationNode.loop_complete g0 ev val hev hval cs g [] s hag h
  | substring i st e =>
    simp only [variantSemantics, Res.bind_ok, Res.ok.injEq] at h
    obtain ⟨input, hv, rfl⟩ := h
    obtain ⟨ga, hga⟩ := hval g i input hag hv
    simp only [eval_inner, hga, andThen]
    by_cases h1 : st ≥ input.length
    · exact ⟨ga, by simp [h1, SubstringNode.result]⟩
    · by_cases h2 : e > input.length
      · exact ⟨ga.modifyNode self (Node.setEndIndex input.length),
          by simp only [h1, h2, if_true, if_false]⟩
      · exact ⟨ga, by simp only [h1, h2, if_false]⟩
  | replacement i o n =>
    simp only [variantSemantics, Res.bind_ok] at h
    obtain ⟨input, hv1, old, hv2, new, hv3, hr⟩ := h
    obtain ⟨ga, hga⟩ := hval g i input hag hv1
    have haga := (hev g i ga input hag hga).1
    obtain ⟨gb, hgb⟩ := hval ga o old haga hv2
    have hagb := (hev ga o gb old haga hgb).1
    obtain ⟨gc, hgc⟩ := hval gb n new hagb hv3
    exact ⟨gc, by simp [eval_inner, hga, hgb, hgc, andThen, hr]⟩
  | patternMatching i q =>
    simp only [variantSemantics, Res.bind_ok, Res.ok.injEq] at h
    obtain ⟨input, hv1, pat, hv2, rfl⟩ := h
    obtain ⟨ga, hga⟩ := hval g i input hag hv1
    have haga := (hev g i ga input hag hga).1
    obtain ⟨gb, hgb⟩ := hval ga q pat haga hv2
    exact ⟨gb, by simp [eval_inner, hga, hgb, andThen]⟩
  | caseConversion i t =>
    simp only [variantSemantics, Res.bind_ok, Res.ok.injEq] at h
    obtain ⟨input, hv1, rfl⟩ := h
    obtain ⟨ga, hga⟩ := hval g i input hag hv1
    exact ⟨ga, by simp [eval_inner, hga, andThen]⟩
  | lengthCalculation i =>
    simp only [variantSemantics, Res.bind_ok, Res.ok.injEq] at h
    obtain ⟨input, hv1, rfl⟩ := h
    obtain ⟨ga, hga⟩ := hval g i input hag hv1
    exact ⟨ga, by simp [eval_inner, hga, andThen]⟩

/-- Completeness of memoised evaluation: from a state that agrees with `g0`, a
node whose cache-free evaluation returns `s` within a budget is evaluated to `s`
within the same budget. -/
theorem Node.eval_complete (g0 : Graph) (f : Nat) (g : Graph) (i : Nat) (s : Str)
    (hag : Agrees g0 g) (hp : pureEval f g0 i = .ok s) :
    ∃ g', Node.eval f g i = (g', .ok s) := by
  induction f generalizing g i s with
  | zero => simp [pureEval] at hp
  | succ f ih =>
    have hp0 := hp
    rw [pureEval] at hp
    cases hn0 : g0.getNode i with
    | none => simp [hn0] at hp
    | some n0 =>
      simp only [hn0] at hp
      have hi : i < g.length := by
        rw [hag.1]; exact (List.getElem?_eq_some_iff.mp hn0).1
      have hn : g[i]? = some g[i] := List.getElem?_eq_getElem hi
      cases hc : g[i].cached_result with
      | some v =>
        obtain ⟨fv, hfv⟩ := (hag.2 i g[i] hn).1 v hc
        obtain rfl := pureEval_det hfv hp0
        exact ⟨g, Node.eval_cached _ hn hc⟩
      | none =>
        obtain ⟨n0', hn0', hk⟩ := (hag.2 i g[i] hn).2 hc
        rw [hn0] at hn0'
        injection hn0' with hn0'
        subst hn0'
        rw [hk] at hp
        obtain ⟨g1, hg1⟩ := eval_inner_complete g0 (f + 1) (Node.eval f) (pureEval f g0)
          (fun g j g' s hg hj => Node.eval_sound g0 f g j g' s hg hj)
          (fun g j s hg hj => ih g j s hg hj) i g g[i].kind s hag hp
        exact ⟨_, by rw [Node.eval_succ_uncached f hn hc, hg1]; rfl⟩

/-! ## An induction principle for evaluation -/

theorem KindStep.rfl_step (k : Kind) : KindStep k k := Or.inl rfl

theorem KindStep.trans_step {a b c : Kind} (h1 : KindStep a b) (h2 : KindStep b c) :
    KindStep a c := by
  rcases h1 with rfl | ⟨i, s, e, e', rfl, rfl⟩
  · exact h2
  · rcases h2 with rfl | ⟨i2, s2, e2, e2', h, rfl⟩
    · exact Or.inr ⟨i, s, e, e', rfl, rfl⟩
    · injection h with h1 h2 h3
      subst h1 h2
      exact Or.inr ⟨i, s, e, e2', rfl, rfl⟩

theorem KindStep.deps {k k' : Kind} (h : KindStep k k') :
    k'.getDependencies = k.getDependencies := by
  rcases h with rfl | ⟨i, s, e, e', rfl, rfl⟩ <;> rfl

theorem Frame.rfl_frame (g : Graph) : Frame g g :=
  ⟨rfl, fun _ n hn => ⟨n, hn, KindStep.rfl_step _, id⟩⟩

theorem Frame.trans_frame {a b c : Graph} (h1 : Frame a b) (h2 : Frame b c) : Frame a c := by
  refine ⟨h2.1.trans h1.1, fun j n hn => ?_⟩
  obtain ⟨n1, hn1, hk1, hc1⟩ := h1.2 j n hn
  obtain ⟨n2, hn2, hk2, hc2⟩ := h2.2 j n1 hn1
  exact ⟨n2, hn2, hk1.trans_step hk2, fun h => hc2 (hc1 h)⟩

theorem Frame.cachedAt_mono {g g' : Graph} (h : Frame g g') {d : Nat} (hd : CachedAt g d) :
    CachedAt g' d := by
  obtain ⟨m, hm, hc⟩ := hd
  obtain ⟨m', hm', _, hc'⟩ := h.2 d m hm
  exact ⟨m', hm', hc' hc⟩

theorem Node.setEndIndex_kindStep (e : Nat) (n : Node) :
    KindStep n.kind (Node.setEndIndex e n).kind ∧
      (Node.setEndIndex e n).cached_result = n.cached_result := by
  unfold Node.setEndIndex
  split
  · rename_i i s e0 hk
    exact ⟨Or.inr ⟨i, s, e0, e, hk, rfl⟩, rfl⟩
  · exact ⟨Or.inl rfl, rfl⟩

/-- The two writes of evaluation stay within `Frame`. -/
theorem Frame.of_write (g : Graph) (i : Nat) (f : Node → Node)
    (hf : (∃ s, f = Node.setCache s) ∨ ∃ e, f = Node.setEndIndex e) :
    Frame g (g.modifyNode i f) := by
  refine ⟨modifyNode_length g i f, fun j n hn => ?_⟩
  simp only [Graph.getNode] at hn ⊢
  rw [modifyNode_getElem?]
  by_cases hij : i = j
  · subst hij
    rw [if_pos rfl, hn]
    refine ⟨f n, rfl, ?_⟩
    rcases hf with ⟨s, rfl⟩ | ⟨e, rfl⟩
    · exact ⟨Or.inl rfl, fun _ => by simp [Node.setCache]⟩
    · obtain ⟨h1, h2⟩ := Node.setEndIndex_kindStep e n
      exact ⟨h1, fun h => by rw [h2]; exact h⟩
  · rw [if_neg hij]
    exact ⟨n, hn, KindStep.rfl_step _, id⟩

theorem andThen_goal {R : Graph → Graph → Prop} {g : Graph} {Q : Graph → Prop}
    {x : Graph × Res} {k : Graph → Str → Graph × Res}
    (hfail : R g x.1 ∧ Frame g x.1)
    (hok : ∀ gb s, x = (gb, .ok s) → EvalGoal R g Q (k gb s)) :
    EvalGoal R g Q (andThen x k) := by
  rcases x with ⟨gb, r⟩
  cases r with
  | ok s => exact hok gb s rfl
  | outOfRange => exact ⟨hfail.1, hfail.2, fun s h => by simp [andThen] at h⟩
  | outOfFuel => exact ⟨hfail.1, hfail.2, fun s h => by simp [andThen] at h⟩

theorem ev_step {R : Graph → Graph → Prop}
    (htrans : ∀ a b c, R a b → R b c → R a c)
    {ev : Graph → Nat → Graph × Res}
    (hev : ∀ g j, EvalGoal R g (fun g' => CachedAt g' j) (ev g j))
    {g ga : Graph} (hR : R g ga) (hF : Frame g ga) (d : Nat)
    (k : Graph → Str → Graph × Res) (Q : Graph → Prop)
    (hok : ∀ gb s, ev ga d = (gb, .ok s) → R g gb → Frame g gb → Frame ga gb →
      CachedAt gb d → EvalGoal R g Q (k gb s)) :
    EvalGoal R g Q (andThen (ev ga d) k) := by
  obtain ⟨h1, h2, h3⟩ := hev ga d
  refine andThen_goal ⟨htrans _ _ _ hR h1, hF.trans_frame h2⟩ fun gb s hx => ?_
  rw [hx] at h1 h2 h3
  exact hok gb s hx (htrans _ _ _ hR h1) (hF.trans_frame h2) h2 (h3 s rfl)

theorem ConcatenationNode.loop_rel {R : Graph → Graph → Prop}
    (htrans : ∀ a b c, R a b → R b c → R a c)
    {ev : Graph → Nat → Graph × Res}
    (hev : ∀ g j, EvalGoal R g (fun g' => CachedAt g' j) (ev g j))
    (cs : List Nat) (g ga : Graph) (acc : Str) (hR : R g ga) (hF : Frame g ga) :
    EvalGoal R g (fun g' => Frame ga g' ∧ ∀ d ∈ cs, CachedAt g' d)
      (ConcatenationNode.loop ev cs ga acc) := by
  induction cs generalizing ga acc with
  | nil => exact ⟨hR, hF, fun _ _ => ⟨Frame.rfl_frame ga, fun d hd => by simp at hd⟩⟩
  | cons c cs ih =>
    simp only [ConcatenationNode.loop]
    refine ev_step htrans hev hR hF c _ _ fun gb s _ hRb hFb hFab hc => ?_
    obtain ⟨h1, h2, h3⟩ := ih gb (acc ++ s) hRb hFb
    refine ⟨h1, h2, fun s' hs' => ?_⟩
    obtain ⟨h4, h5⟩ := h3 s' hs'
    refine ⟨hFab.trans_frame h4, fun d hd => ?_⟩
    rcases List.mem_cons.mp hd with rfl | hd
    · exact h4.cachedAt_mono hc
    · exact h5 d hd

theorem eval_inner_rel {R : Graph → Graph → Prop} (hrefl : ∀ g, R g g)
    (htrans : ∀ a b c, R a b → R b c → R a c)
    (hmod : ∀ g i n f, g.getNode i = some n → (∀ d ∈ n.getDependencies, CachedAt g d) →
      ((∃ s, f = Node.setCache s) ∨ ∃ e, f = Node.setEndIndex e) → R g (g.modifyNode i f))
    (F : Nat) {ev : Graph → Nat → Graph × Res}
    (hev : ∀ g j, EvalGoal R g (fun g' => CachedAt g' j) (ev g j))
    (self : Nat) (g : Graph) (n : Node) (hn : g.getNode self = some n) :
    EvalGoal R g (fun g' => ∀ d ∈ n.getDependencies, CachedAt g' d)
      (eval_inner F ev self g n.kind) := by
  unfold Node.getDependencies
  cases hk : n.kind with
  | constant v => exact ⟨hrefl g, Frame.rfl_frame g, fun _ _ d hd => by simp [Kind.getDependencies] at hd⟩
  | concatenation cs =>
    obtain ⟨h1, h2, h3⟩ := ConcatenationNode.loop_rel htrans hev cs g g [] (hrefl g)
      (Frame.rfl_frame g)
    exact ⟨h1, h2, fun s hs => (h3 s hs).2⟩
  | substring i st e =>
    simp only [eval_inner, Kind.getDependencies]
    refine ev_step htrans hev (hrefl g) (Frame.rfl_frame g) i _ _ fun gb input _ hRb hFb _ hc => ?_
    have hdeps : ∀ gc, Frame gb gc → ∀ d ∈ [i], CachedAt gc d := by
      intro gc hgc d hd
      rw [List.mem_singleton] at hd
      subst hd
      exact hgc.cachedAt_mono hc
    split
    · exact ⟨hRb, hFb, fun _ _ => hdeps gb (Frame.rfl_frame gb)⟩
    · split
      · obtain ⟨nb, hnb, hkb, _⟩ := hFb.2 self n hn
        have hcached : ∀ d ∈ nb.getDependencies, CachedAt gb d := by
          intro d hd
          unfold Node.getDependencies at hd
          rw [hkb.deps, hk] at hd
          exact hdeps gb (Frame.rfl_frame gb) d hd
        have hm := Frame.of_write gb self (Node.setEndIndex input.length) (Or.inr ⟨_, rfl⟩)
        exact ⟨htrans _ _ _ hRb (hmod gb self nb _ hnb hcached (Or.inr ⟨_, rfl⟩)),
          hFb.trans_frame hm, fun _ _ => hdeps _ hm⟩
      · exact ⟨hRb, hFb, fun _ _ => hdeps gb (Frame.rfl_frame gb)⟩
  | replacement i o nw =>
    simp only [eval_inner, Kind.getDependencies]
    refine ev_step htrans hev (hrefl g) (Frame.rfl_frame g) i _ _ fun g1 input _ hR1 hF1 _ hc1 => ?_
    refine ev_step htrans hev hR1 hF1 o _ _ fun g2 old _ hR2 hF2 hF12 hc2 => ?_
    refine ev_step htrans hev hR2 hF2 nw _ _ fun g3 new _ hR3 hF3 hF23 hc3 => ?_
    refine ⟨hR3, hF3, fun _ _ d hd => ?_⟩
    simp only [List.mem_cons, List.mem_singleton, List.not_mem_nil, or_false] at hd
    rcases hd with rfl | rfl | rfl
    · exact hF23.cachedAt_mono (hF12.cachedAt_mono hc1)
    · exact hF23.cachedAt_mono hc2
    · exact hc3
  | patternMatching i q =>
    simp only [eval_inner, Kind.getDependencies]
    refine ev_step htrans hev (hrefl g) (Frame.rfl_frame g) i _ _ fun g1 input _ hR1 hF1 _ hc1 => ?_
    refine ev_step htrans hev hR1 hF1 q _ _ fun g2 pat _ hR2 hF2 hF12 hc2 => ?_
    refine ⟨hR2, hF2, fun _ _ d hd => ?_⟩
    simp only [List.mem_cons, List.mem_singleton, List.not_mem_nil, or_false] at hd
    rcases hd with rfl | rfl
    · exact hF12.cachedAt_mono hc1
    · exact hc2
  | caseConversion i t =>
    simp only [eval_inner, Kind.getDependencies]
    refine ev_step htrans hev (hrefl g) (Frame.rfl_frame g) i _ _ fun g1 input _ hR1 hF1 _ hc1 => ?_
    refine ⟨hR1, hF1, fun _ _ d hd => ?_⟩
    rw [List.mem_singleton] at hd
    subst hd
    exact hc1
  | lengthCalculation i =>
    simp only [eval_inner, Kind.getDependencies]
    refine ev_step htrans hev (hrefl g) (Frame.rfl_frame g) i _ _ fun g1 input _ hR1 hF1 _ hc1 => ?_
    refine ⟨hR1, hF1, fun _ _ d hd => ?_⟩
    rw [List.mem_singleton] at hd
    subst hd
    exact hc1

theorem Node.evalWith_rel {R : Graph → Graph → Prop} (hrefl : ∀ g, R g g)
    (htrans : ∀ a b c, R a b → R b c → R a c)
    (hmod : ∀ g i n f, g.getNode i = some n → (∀ d ∈ n.getDependencies, CachedAt g d) →
      ((∃ s, f = Node.setCache s) ∨ ∃ e, f = Node.setEndIndex e) → R g (g.modifyNode i f))
    (inner : Graph → Kind → Graph × Res) (g : Graph) (i : Nat)
    (hin : ∀ n, g.getNode i = some n →
      EvalGoal R g (fun g' => ∀ d ∈ n.getDependencies, CachedAt g' d) (inner g n.kind)) :
    EvalGoal R g (fun g' => CachedAt g' i) (Node.evalWith inner g i) := by
  unfold Node.evalWith
  cases hn : g.getNode i with
  | none => exact ⟨hrefl g, Frame.rfl_frame g, fun s h => by simp at h⟩
  | some n =>
    simp only []
    cases hc : n.cached_result with
    | some v => exact ⟨hrefl g, Frame.rfl_frame g, fun _ _ => ⟨n, hn, by simp [hc]⟩⟩
    | none =>
      simp only []
      obtain ⟨h1, h2, h3⟩ := hin n hn
      refine andThen_goal ⟨h1, h2⟩ fun g1 s hx => ?_
      rw [hx] at h1 h2 h3
      obtain ⟨n1, hn1, hk1, _⟩ := h2.2 i n hn
      have hcached : ∀ d ∈ n1.getDependencies, CachedAt g1 d := by
        intro d hd
        unfold Node.getDependencies at hd
        rw [hk1.deps] at hd
        exact h3 s rfl d hd
      have hm := Frame.of_write g1 i (Node.setCache s) (Or.inl ⟨_, rfl⟩)
      refine ⟨htrans _ _ _ h1 (hmod g1 i n1 _ hn1 hcached (Or.inl ⟨_, rfl⟩)), h2.trans_frame hm,
        fun _ _ => ⟨Node.setCache s n1, ?_, by simp [Node.setCache]⟩⟩
      simp only [Graph.getNode] at hn1 ⊢
      rw [modifyNode_getElem?, if_pos rfl, hn1]
      rfl

/-- Induction principle for evaluation: a reflexive, transitive relation between
states that holds for the two writes of evaluation, whenever they are made to a
node whose dependencies are all cached, holds between the state before and the
state after a call of `Node::eval`, whatever its outcome; so does `Frame`; and
after a call that returns a string the node is cached. -/
theorem Node.eval_rel {R : Graph → Graph → Prop} (hrefl : ∀ g, R g g)
    (htrans : ∀ a b c, R a b → R b c → R a c)
    (hmod : ∀ g i n f, g.getNode i = some n → (∀ d ∈ n.getDependencies, CachedAt g d) →
      ((∃ s, f = Node.setCache s) ∨ ∃ e, f = Node.setEndIndex e) → R g (g.modifyNode i f))
    (fuel : Nat) (g : Graph) (i : Nat) :
    EvalGoal R g (fun g' => CachedAt g' i) (Node.eval fuel g i) := by
  induction fuel generalizing g i with
  | zero =>
    exact Node.evalWith_rel hrefl htrans hmod _ g i fun n _ =>
      ⟨hrefl g, Frame.rfl_frame g, fun s h => by simp at h⟩
  | succ f ih =>
    exact Node.evalWith_rel hrefl htrans hmod _ g i fun n hn =>
      eval_inner_rel hrefl htrans hmod (f + 1) ih i g n hn

/-- Evaluation keeps the size of the graph, the fields of every node up to the
`endIndex` of a Substring, and every populated cache slot populated. -/
theorem Node.eval_frame (fuel : Nat) (g : Graph) (i : Nat) :
    Frame g (Node.eval fuel g i).1 :=
  (Node.eval_rel (R := fun _ _ => True) (fun _ => trivial) (fun _ _ _ _ _ => trivial)
    (fun _ _ _ _ _ _ _ => trivial) fuel g i).2.1

theorem DepsCached.write {g : Graph} (hD : DepsCached g) (i : Nat) (n : Node) (f : Node → Node)
    (hn : g.getNode i = some n) (hdeps : ∀ d ∈ n.getDependencies, CachedAt g d)
    (hf : (∃ s, f = Node.setCache s) ∨ ∃ e, f = Node.setEndIndex e) :
    DepsCached (g.modifyNode i f) := by
  have hF := Frame.of_write g i f hf
  intro j m hm hmc d hd
  apply hF.cachedAt_mono
  simp only [Graph.getNode] at hm hn
  rw [modifyNode_getElem?] at hm
  by_cases hij : i = j
  · subst hij
    rw [if_pos rfl, hn] at hm
    simp only [Option.map_some', Option.some.injEq] at hm
    subst hm
    obtain ⟨n', hn', hk, _⟩ := hF.2 i n hn
    simp only [Graph.getNode] at hn'
    rw [modifyNode_getElem?, if_pos rfl, hn] at hn'
    simp only [Option.map_some', Option.some.injEq] at hn'
    subst hn'
    unfold Node.getDependencies at hd
    rw [hk.deps] at hd
    exact hdeps d hd
  · rw [if_neg hij] at hm
    exact hD j m hm hmc d hd

/-- Evaluation, whatever its outcome, keeps "every cached node has its direct
dependencies cached". -/
theorem Node.eval_depsCached (fuel : Nat) (g : Graph) (i : Nat) (hD : DepsCached g) :
    DepsCached (Node.eval fuel g i).1 :=
  (Node.eval_rel (R := fun a b => DepsCached a → DepsCached b) (fun _ h => h)
    (fun _ _ _ h1 h2 h => h2 (h1 h))
    (fun _ i n f hn hdeps hf hD => hD.write i n f hn hdeps hf) fuel g i).1 hD

theorem Agrees.from_consistent {g : Graph} (h : CacheConsistent g) : Agrees g g :=
  ⟨rfl, fun j n hn => ⟨fun v hv => (h j n v hn hv).2, fun _ => ⟨n, hn, rfl⟩⟩⟩

theorem DepsCached.from_cacheConsistent {g : Graph} (h : CacheConsistent g) : DepsCached g := by
  intro i n hn hc
  cases hv : n.cached_result with
  | none => exact absurd hv hc
  | some v => exact (h i n v hn hv).1

theorem Frame.kind_of_noSubstring {g g' : Graph} (hF : Frame g g') (hns : NoSubstring g)
    (j : Nat) : (g'.getNode j).map Node.kind = (g.getNode j).map Node.kind := by
  cases hg : g.getNode j with
  | none =>
    have : g'.getNode j = none := by
      simp only [Graph.getNode] at hg ⊢
      rw [List.getElem?_eq_none_iff] at hg ⊢
      rw [hF.1]; exact hg
    rw [this]
  | some n =>
    obtain ⟨n', hn', hk, _⟩ := hF.2 j n hg
    rw [hn']
    simp only [Option.map_some', Option.some.injEq]
    rcases hk with h | ⟨i, s, e, e', h, _⟩
    · exact h
    · exact absurd h (hns n (List.getElem?_mem hg) i s e)

/-- A successful evaluation keeps the cache consistent, on a graph without
Substring node. -/
theorem CacheConsistent.eval {g g' : Graph} (hns : NoSubstring g) (hcc : CacheConsistent g)
    {fuel i : Nat} {s : Str} (h : Node.eval fuel g i = (g', .ok s)) :
    CacheConsistent g' ∧
      ∀ j, (g'.getNode j).map Node.kind = (g.getNode j).map Node.kind := by
  have hF : Frame g g' := by
    have := Node.eval_frame fuel g i
    rwa [h] at this
  have hD : DepsCached g' := by
    have := Node.eval_depsCached fuel g i (DepsCached.from_cacheConsistent hcc)
    rwa [h] at this
  have hag := (Node.eval_sound g fuel g i g' s (Agrees.from_consistent hcc) h).1
  have hkinds := hF.kind_of_noSubstring hns
  refine ⟨fun j n v hn hv => ⟨hD j n hn (by simp [hv]), ?_⟩, hkinds⟩
  obtain ⟨f, hf⟩ := (hag.2 j n hn).1 v hv
  exact ⟨f, by rw [pureEval_congr g' g f j fun k _ => hkinds k]; exact hf⟩

/-- `setValue` followed by the sweep keeps the cache consistent, on a graph in
topological order. -/
theorem CacheConsistent.setValue_sweep {g h : Graph} (htopo : TopoOrdered g)
    (hcc : CacheConsistent g) {c : Nat} {val : Str}
    (hset : ConstantNode.setValue g c val = some h) :
    TopoOrdered h ∧ (Graph.checkInvalidateCache h).2 = .returned ∧
      CacheConsistent (Graph.checkInvalidateCache h).1 := by
  obtain ⟨hc, hne⟩ := ConstantNode.setValue_getNode hset
  have htopoh : TopoOrdered h := by
    intro j n hn d hd
    obtain ⟨n', hn', hdeps, _⟩ := ConstantNode.setValue_deps hset hn
    exact htopo j n' hn' d (hdeps ▸ hd)
  obtain ⟨hret, hcl, hiff⟩ := checkInvalidateCache_topo h htopoh
  refine ⟨htopoh, hret, fun j n w hn hw => ?_⟩
  have hcached : CachedAt (Graph.checkInvalidateCache h).1 j := ⟨n, hn, by simp [hw]⟩
  have hsj : Settled h j := (hiff j).mp hcached
  have hhn : h.getNode j = some n := by
    rcases hcl.2 j with h1 | ⟨m, _, h2⟩
    · rw [← h1]; exact hn
    · rw [hn] at h2
      injection h2 with h2
      subst h2
      cases hw
  have hreach : ∀ k, (k = j ∨ DependsOn h j k) → k ≠ c := by
    rintro k (rfl | hk) rfl
    · rw [hc] at hhn
      injection hhn with hhn
      subst hhn
      cases hw
    · exact hsj.2 k _ hk hc rfl
  have hgn : g.getNode j = some n := by rw [← hne j (hreach j (Or.inl rfl))]; exact hhn
  obtain ⟨_, f, hf⟩ := hcc j n w hgn hw
  constructor
  · intro d hd
    have hdl : d < h.length := by
      have := htopoh j n hhn d hd
      have := (List.getElem?_eq_some_iff.mp hhn).1
      omega
    exact (hiff d).mpr (hsj.dep hhn hd (List.getElem?_eq_getElem hdl))
  · refine ⟨f, ?_⟩
    rw [pureEval_congr _ h f j fun k _ => hcl.kind k,
      ← pureEval_congr g h f j fun k hk => by rw [hne k (hreach k hk)]]
    exact hf

/-! ## Construction -/

theorem Graph.deserialize_eq (nodes : Graph) (j : List NodeJson) :
    Graph.deserialize nodes j = nodes ++ j.filterMap NodeJson.toNode := by
  unfold Graph.deserialize
  induction j generalizing nodes with
  | nil => simp
  | cons d j ih =>
    simp only [List.foldl_cons, List.filterMap_cons]
    cases hd : d.toNode with
    | none => simpa using ih nodes
    | some n => simpa using ih (nodes ++ [n])

/-- A non-negative JSON integer is its own `size_t` value. -/
theorem JsonInt.toSizeT_ofNat (n : Nat) (h : n < 2 ^ 64) :
    (JsonInt.ofNat n h).toSizeT = n := by
  simp only [JsonInt.toSizeT, JsonInt.ofNat, intToSizeT]
  omega

/-- A JSON integer from 0 to `2^31 - 1` is stored unchanged as a child index. -/
theorem JsonInt.toChildIndex_ofNat (n : Nat) (h : n < 2 ^ 64) (hn : n < 2 ^ 31) :
    (JsonInt.ofNat n h).toChildIndex = n := by
  simp only [JsonInt.toChildIndex, JsonInt.toInt, JsonInt.ofNat, intToSizeT]
  omega

theorem NodeJson.toNode_empty {d : NodeJson} {n : Node} (h : d.toNode = some n) :
    n.cached_result = none := by
  cases d <;> simp [NodeJson.toNode] at h <;> subst h <;> rfl

/-- A graph built from the input has all caches empty. -/
theorem Graph.deserialize_allEmpty (j : List NodeJson) :
    AllEmpty (Graph.deserialize [] j) := by
  rw [Graph.deserialize_eq]
  intro n hn
  simp only [List.nil_append, List.mem_filterMap] at hn
  obtain ⟨d, _, hd⟩ := hn
  exact NodeJson.toNode_empty hd

/-! ## Facts about the example graphs -/

/-- The chain has valid, acyclic indices in each of its states: the rank of
node `i` is `2 - i`. -/
theorem graphChain0_wellFormed : WellFormed graphChain0 (fun i => 2 - i) := by
  intro i n hn d hd
  have hi : i < 3 := (List.getElem?_eq_some_iff.mp hn).1
  have hl : graphChain0.length = 3 := rfl
  rw [hl]
  interval_cases i <;> simp [graphChain0, Graph.getNode, const] at hn <;> subst hn <;>
    simp [Node.getDependencies, Kind.getDependencies] at hd <;> subst hd <;> simp

/-- The same for the chain after `setValue`. -/
theorem graphChainSet_wellFormed : WellFormed graphChainSet (fun i => 2 - i) := by
  intro i n hn d hd
  have hi : i < 3 := (List.getElem?_eq_some_iff.mp hn).1
  have hl : graphChainSet.length = 3 := rfl
  rw [hl]
  interval_cases i <;> simp [graphChainSet, Graph.getNode] at hn <;> subst hn <;>
    simp [Node.getDependencies, Kind.getDependencies] at hd <;> subst hd <;> simp

theorem graphTopo0_topoOrdered : TopoOrdered graphTopo0 := by
  intro i n hn d hd
  have hi : i < 3 := (List.getElem?_eq_some_iff.mp hn).1
  interval_cases i <;> simp [graphTopo0, Graph.getNode, const] at hn <;> subst hn <;>
    simp [Node.getDependencies, Kind.getDependencies] at hd <;> subst hd <;> simp

theorem graphTopo0_noSubstring : NoSubstring graphTopo0 := by
  intro n hn i s e hk
  simp only [graphTopo0, const, List.mem_cons, List.mem_singleton, List.not_mem_nil,
    or_false] at hn
  rcases hn with rfl | rfl | rfl <;> cases hk

theorem graphTopoSet_topoOrdered : TopoOrdered graphTopoSet := by
  intro i n hn d hd
  have hi : i < 3 := (List.getElem?_eq_some_iff.mp hn).1
  interval_cases i <;> simp [graphTopoSet, Graph.getNode] at hn <;> subst hn <;>
    simp [Node.getDependencies, Kind.getDependencies] at hd <;> subst hd <;> simp

/-- C1. Invalidation freshness, on the source: the chain `[Length [1],
Length [2], Constant "a"]` has valid, acyclic indices and empty caches; it is
evaluated at node 0, then `setValue "aaaaaaaaaa"` on the constant and
`checkInvalidateCache`. Node 0, which depends on the constant through node 1,
then evaluates to its old value "1" for every budget, while the cache-free
evaluation of the same state gives "2". -/
theorem stale_after_sweep_chain :
    WellFormed graphChain0 (fun i => 2 - i) ∧ AllEmpty graphChain0 ∧
      Node.eval 3 graphChain0 0 = (graphChain, .ok (bytes "1")) ∧
      ConstantNode.setValue graphChain 2 (bytes "aaaaaaaaaa") = some graphChainSet ∧
      Graph.checkInvalidateCache graphChainSet = (graphChainSwept, .returned) ∧
      DependsOn graphChainSwept 0 2 ∧
      (∀ fuel, Node.eval fuel graphChainSwept 0 = (graphChainSwept, .ok (bytes "1"))) ∧
      pureEval 3 graphChainSwept 0 = .ok (bytes "2") := by
  refine ⟨graphChain0_wellFormed, by unfold AllEmpty; decide, by decide, by decide,
    by decide, ?_, fun fuel => ?_, by decide⟩
  · exact .step (n := ⟨some (bytes "1"), .lengthCalculation 1⟩) (j := 1) rfl (by decide)
      (.direct (n := ⟨none, .lengthCalculation 2⟩) rfl (by decide))
  · exact Node.eval_cached fuel (n := ⟨some (bytes "1"), .lengthCalculation 1⟩) rfl rfl

/-- C2. Sweep fixpoint, on the source: the chain `[Length [1], Length [2],
Constant]` is evaluated at node 0 and its constant is set; the indices are valid.
When `checkInvalidateCache` returns, node 0 still has its cache although its
direct dependency, node 1, has none, and a second call clears node 0. The body
of `while (visited)` runs once, in index order. -/
theorem sweep_single_pass_chain :
    WellFormed graphChainSet (fun i => 2 - i) ∧
      Node.eval 3 graphChain0 0 = (graphChain, .ok (bytes "1")) ∧
      ConstantNode.setValue graphChain 2 (bytes "aaaaaaaaaa") = some graphChainSet ∧
      Graph.checkInvalidateCache graphChainSet = (graphChainSwept, .returned) ∧
      graphChainSwept.getNode 0 = some ⟨some (bytes "1"), .lengthCalculation 1⟩ ∧
      graphChainSwept.getNode 1 = some ⟨none, .lengthCalculation 2⟩ ∧
      (Graph.checkInvalidateCache graphChainSwept).1 ≠ graphChainSwept :=
  ⟨graphChainSet_wellFormed, by decide⟩

/-- C3. Memoization correctness: when `Node::eval` on node `i` returns a string,
the cache slot of node `i` holds exactly that string afterwards, and a second
`Node::eval` on node `i` in the resulting state, whatever its budget, returns the
same string and leaves the whole state unchanged. -/
theorem memoization_correct (fuel : Nat) (g g' : Graph) (i : Nat) (s : Str)
    (h : Node.eval fuel g i = (g', .ok s)) :
    (∃ n, g'.getNode i = some n ∧ n.cached_result = some s) ∧
      ∀ fuel', Node.eval fuel' g' i = (g', .ok s) := by
  have hcache : ∃ n, g'[i]? = some n ∧ n.cached_result = some s := by
    obtain ⟨n, hn, ⟨hc, rfl⟩ | ⟨_, f, g1, rfl, h1, rfl⟩⟩ := Node.eval_ok h
    · exact ⟨n, hn, hc⟩
    · have hlen : g1.length = g.length := by
        have := eval_inner_length (f + 1) (Node.eval f) (Node.eval_length f) i g n.kind
        rwa [h1] at this
      have hi : i < g1.length := by
        rw [hlen]; exact (List.getElem?_eq_some_iff.mp hn).1
      refine ⟨Node.setCache s g1[i], ?_, rfl⟩
      simp [modifyNode_getElem?, List.getElem?_eq_getElem hi]
  obtain ⟨n, hn, hc⟩ := hcache
  exact ⟨⟨n, hn, hc⟩, fun fuel' => Node.eval_cached fuel' hn hc⟩

/-- Witness for C3 on the end-to-end graph. -/
theorem memoization_correct_witness :
    Node.eval 3 graphE2E 3 = (graphE2Edone, .ok (bytes "6")) ∧
      ((∃ n, graphE2Edone.getNode 3 = some n ∧ n.cached_result = some (bytes "6")) ∧
        ∀ fuel', Node.eval fuel' graphE2Edone 3 = (graphE2Edone, .ok (bytes "6"))) :=
  ⟨by decide, memoization_correct 3 graphE2E graphE2Edone 3 (bytes "6") (by decide)⟩

/-- C4. Cache hit: on a node whose cache slot holds `s`, `Node::eval` returns `s`
and returns the state it was given, whatever the fields and the caches of the
other nodes are (no dependency is looked at, so an invalid index or a stale value
does not matter) and whatever the budget; `Computation::eval` is that call on the
output node, with no sweep, so after `setValue` on another node `c` the output node
still returns its cached `s`. -/
theorem cache_hit (g : Graph) (i : Nat) (n : Node) (s : Str)
    (hn : g.getNode i = some n) (hc : n.cached_result = some s) :
    (∀ fuel, Node.eval fuel g i = (g, .ok s)) ∧
      (∀ fuel, Computation.eval fuel ⟨g, i⟩ = (⟨g, i⟩, .ok s)) ∧
      ∀ c val g2, c ≠ i → ConstantNode.setValue g c val = some g2 →
        ∀ fuel, Computation.eval fuel ⟨g2, i⟩ = (⟨g2, i⟩, .ok s) := by
  refine ⟨fun fuel => Node.eval_cached fuel hn hc, fun fuel => ?_, ?_⟩
  · simp [Computation.eval, Node.eval_cached fuel hn hc]
  · intro c val g2 hci hset fuel
    have hn2 : g2[i]? = some n := by
      unfold ConstantNode.setValue at hset
      split at hset
      · injection hset with hset
        subst hset
        rw [List.getElem?_set_ne hci]
        exact hn
      · exact absurd hset (by simp)
    simp [Computation.eval, Node.eval_cached fuel hn2 hc]

/-- Witness for C4: the length node of a stale graph with a dangling index. -/
theorem cache_hit_witness :
    graphStale.getNode 1 = some ⟨some (bytes "3"), .lengthCalculation 7⟩ ∧
      ((∀ fuel, Node.eval fuel graphStale 1 = (graphStale, .ok (bytes "3"))) ∧
        (∀ fuel, Computation.eval fuel ⟨graphStale, 1⟩ = (⟨graphStale, 1⟩, .ok (bytes "3"))) ∧
        ∀ c val g2, c ≠ 1 → ConstantNode.setValue graphStale c val = some g2 →
          ∀ fuel, Computation.eval fuel ⟨g2, 1⟩ = (⟨g2, 1⟩, .ok (bytes "3"))) :=
  ⟨by decide, cache_hit graphStale 1 ⟨some (bytes "3"), .lengthCalculation 7⟩ (bytes "3")
    (by decide) rfl⟩

/-- C6. Sweep frame: after `checkInvalidateCache` (whether it returns or throws)
the graph has the same size and every node is either exactly as it was or as it
was with its cache slot emptied, so no slot is populated, no cached string
altered and no field changed; and a node that was cached at entry with no
uncached node among its direct or transitive dependencies at entry is exactly as
it was. -/
theorem sweep_frame (g : Graph) :
    ((Graph.checkInvalidateCache g).1.length = g.length ∧
      ∀ j, (Graph.checkInvalidateCache g).1.getNode j = g.getNode j ∨
        ∃ n, g.getNode j = some n ∧
          (Graph.checkInvalidateCache g).1.getNode j = some ⟨none, n.kind⟩) ∧
      ∀ j n s, g.getNode j = some n → n.cached_result = some s →
        (∀ k m, DependsOn g j k → g.getNode k = some m → m.cached_result ≠ none) →
        (Graph.checkInvalidateCache g).1.getNode j = some n := by
  have h := sweepNodes_inv g (List.range g.length) g (ClearedFrom.refl g) (fun _ _ => rfl)
  refine ⟨h.1, fun j n s hn hc hdeps => ?_⟩
  rw [← hn]
  exact h.2 j ⟨⟨n, hn, by simp [hc]⟩, hdeps⟩

/-- Witness for C6: on the chain after `setValue` the sweep only clears node 1,
and on the fully cached chain node 2, which has no dependencies, is kept. -/
theorem sweep_frame_witness :
    Graph.checkInvalidateCache graphChainSet = (graphChainSwept, .returned) ∧
      (Graph.checkInvalidateCache graphChain).1.getNode 2 =
        some ⟨some (bytes "a"), .constant (bytes "a")⟩ :=
  ⟨by decide,
    (sweep_frame graphChain).2 2 ⟨some (bytes "a"), .constant (bytes "a")⟩ (bytes "a")
      (by decide) rfl (by
        intro k m hk
        exfalso
        cases hk with
        | direct hn hd =>
          have : (graphChain.getNode 2) = some ⟨some (bytes "a"), .constant (bytes "a")⟩ := by
            decide
          rw [this] at hn
          injection hn with hn
          subst hn
          simp [Node.getDependencies, Kind.getDependencies] at hd
        | step hn hd _ =>
          have : (graphChain.getNode 2) = some ⟨some (bytes "a"), .constant (bytes "a")⟩ := by
            decide
          rw [this] at hn
          injection hn with hn
          subst hn
          simp [Node.getDependencies, Kind.getDependencies] at hd)⟩

/-- C7. Substring with end before start, on the source: for input "hello",
start 3 and end 1 the node evaluates to "lo", not to the empty string. The
subtraction `endIndex - startIndex` wraps around, and `substr` then runs to the end
of the input. -/
theorem substring_end_before_start_hello :
    (Node.eval 2 graphSub 1).2 = .ok (bytes "lo") ∧
      (Node.eval 2 graphSub 1).2 ≠ .ok [] ∧
      ∀ (input : Str) (startIndex endIndex : Nat), endIndex < startIndex →
        startIndex < input.length → input.length < sizeMod →
        SubstringNode.result startIndex endIndex input = input.drop startIndex := by
  refine ⟨by decide, by decide, ?_⟩
  intro input startIndex endIndex hes hs hlen
  unfold SubstringNode.result
  have hce : SubstringNode.clampedEnd endIndex input = endIndex := by
    unfold SubstringNode.clampedEnd
    split <;> omega
  rw [if_neg (by omega), hce, substr]
  apply List.take_of_length_le
  rw [Nat.mod_eq_of_lt (by have := hes; unfold sizeMod at *; omega), List.length_drop]
  omega

/-- C8. Substring clamping: an uncached Substring node with `start <= end` (both
of type `size_t`), whose input dependency evaluates to `input`, evaluates to the
empty string when `start >= len input` and otherwise to the bytes of `input` at
positions `[start, min end (len input))`. -/
theorem substring_clamping (fuel : Nat) (g g1 : Graph) (i inp startIndex endIndex : Nat)
    (input : Str)
    (hn : g.getNode i = some ⟨none, .substring inp startIndex endIndex⟩)
    (hin : Node.eval fuel g inp = (g1, .ok input))
    (hse : startIndex ≤ endIndex) (he : endIndex < sizeMod) :
    (Node.eval (fuel + 1) g i).2 =
      .ok (if startIndex ≥ input.length then []
           else (input.take (min endIndex input.length)).drop startIndex) := by
  rw [Node.eval_succ_uncached fuel hn rfl]
  simp only [eval_inner, hin, andThen]
  rw [← SubstringNode.result_of_le hse he]
  by_cases hs : startIndex ≥ input.length
  · simp [hs, SubstringNode.result]
  · by_cases he2 : endIndex > input.length <;> simp [hs, he2]

/-- Witness for C8: "hello" with start 2 and end 10 gives "llo". -/
theorem substring_clamping_witness :
    (Node.eval 2 graphSub 2).2 = .ok (bytes "llo") ∧ (Node.eval 2 graphSub 3).2 = .ok [] ∧
      (Node.eval 2 graphSub 2).2 =
        .ok (if 2 ≥ (bytes "hello").length then []
             else ((bytes "hello").take (min 10 (bytes "hello").length)).drop 2) :=
  ⟨by decide, by decide,
    substring_clamping 1 graphSub
      (⟨some (bytes "hello"), .constant (bytes "hello")⟩ :: graphSub.tail) 2 0 2 10
      (bytes "hello") (by decide) (by decide) (by decide) (by decide)⟩

/-- C10. Local invalidation on mutation: `setValue` applies to the node `c` exactly
when it is a `ConstantNode`; it then stores the new value in node `c`, empties the
cache slot of node `c`, and leaves every other node (cache slot and fields) as it
was; an evaluation of node `c` that follows returns the new value. -/
theorem setValue_local (g : Graph) (c : Nat) (val : Str) :
    ((∃ g', ConstantNode.setValue g c val = some g') ↔
        ∃ cache v0, g.getNode c = some ⟨cache, .constant v0⟩) ∧
      ∀ g', ConstantNode.setValue g c val = some g' →
        g'.getNode c = some ⟨none, .constant val⟩ ∧
        g'.length = g.length ∧
        (∀ j, j ≠ c → g'.getNode j = g.getNode j) ∧
        ∀ fuel, (Node.eval (fuel + 1) g' c).2 = .ok val := by
  have key : ∀ g', ConstantNode.setValue g c val = some g' →
      (∃ cache v0, g.getNode c = some ⟨cache, .constant v0⟩) ∧
        g' = g.set c ⟨none, .constant val⟩ := by
    intro g' h
    unfold ConstantNode.setValue at h
    split at h
    · rename_i cache v0 hg
      injection h with h
      exact ⟨⟨cache, v0, hg⟩, h.symm⟩
    · exact absurd h (by simp)
  refine ⟨⟨fun ⟨g', h⟩ => (key g' h).1, fun ⟨cache, v0, h⟩ => ?_⟩, ?_⟩
  · exact ⟨g.set c ⟨none, .constant val⟩,
      by simp [ConstantNode.setValue, h, Node.invalidateCache]⟩
  · intro g' h
    obtain ⟨⟨cache, v0, hg⟩, rfl⟩ := key g' h
    have hc : c < g.length := (List.getElem?_eq_some_iff.mp hg).1
    have hnode : (g.set c ⟨none, .constant val⟩)[c]? = some ⟨none, .constant val⟩ := by
      simp [List.getElem?_set, hc]
    refine ⟨hnode, by simp, fun j hj => ?_, fun fuel => ?_⟩
    · simp [Graph.getNode, List.getElem?_set_ne (Ne.symm hj)]
    · rw [Node.eval_succ_uncached fuel hnode rfl]
      simp [eval_inner, andThen]

/-- Witness for C10: the first constant of the evaluated end-to-end graph is set
to "quux"; the concatenation and length nodes keep their caches. -/
theorem setValue_local_witness :
    ConstantNode.setValue graphE2Edone 0 (bytes "quux") = some graphE2Eset ∧
      graphE2Eset.getNode 0 = some ⟨none, .constant (bytes "quux")⟩ ∧
      graphE2Eset.length = graphE2Edone.length ∧
      (∀ j, j ≠ 0 → graphE2Eset.getNode j = graphE2Edone.getNode j) ∧
      ∀ fuel, (Node.eval (fuel + 1) graphE2Eset 0).2 = .ok (bytes "quux") :=
  ⟨by decide, (setValue_local graphE2Edone 0 (bytes "quux")).2 graphE2Eset (by decide)⟩

/-- C12, on the source: `[Constant "a", Length [5]]` has a node whose dependency
index 5 exceeds the node count 2, yet with output index 0 building and
evaluating it returns "a", for every budget. -/
theorem invalid_reference_not_rejected :
    (Computation.deserialize inputDangling0).graph.length = 2 ∧
      (Computation.deserialize inputDangling0).graph.getNode 1 =
        some ⟨none, .lengthCalculation 5⟩ ∧
      (∀ fuel, eval_graph_cpp (fuel + 1) inputDangling0 = .ok (bytes "a")) ∧
      ¬ (eval_graph_cpp 1 inputDangling0 = .outOfRange) := by
  refine ⟨by decide, by decide, fun fuel => ?_, by decide⟩
  have hn : (Computation.deserialize inputDangling0).graph.getNode 0 =
      some ⟨none, .constant (bytes "a")⟩ := by decide
  unfold eval_graph_cpp Computation.eval
  show (Node.eval (fuel + 1) (Computation.deserialize inputDangling0).graph 0).2 = _
  rw [Node.eval_succ_uncached fuel hn rfl]
  rfl

/-- C12, as the source has it: building the graph checks no index and leaves
every cache empty; the indices it stores are the JSON integers converted as the
source converts them (a concatenation child through `int`, every other index
through `size_t`), which keeps an index below `2^31` as written; and
`eval_graph_cpp` is the evaluation of the output node of that graph. It returns
the string of the cache-free evaluation of the output node whenever that
evaluation returns one (so an invalid index that is not reached does no harm);
it never returns a string when the stored output index, or a stored index
reachable from the output node through dependencies, is outside the graph; and
when that index is the first dependency of the output node it throws the
out-of-range exception. -/
theorem invalid_reference_lazy (j : InputJson) :
    Graph.deserialize [] j.graph = j.graph.filterMap NodeJson.toNode ∧
      AllEmpty (Graph.deserialize [] j.graph) ∧
      (∀ n h, n < 2 ^ 31 →
        (JsonInt.ofNat n h).toChildIndex = n ∧ (JsonInt.ofNat n h).toSizeT = n) ∧
      (∀ fuel s,
        pureEval fuel (Graph.deserialize [] j.graph) j.output_node_index.toSizeT = .ok s →
        ∀ fuel', fuel ≤ fuel' → eval_graph_cpp fuel' j = .ok s) ∧
      (∀ k, (k = j.output_node_index.toSizeT ∨
            DependsOn (Graph.deserialize [] j.graph) j.output_node_index.toSizeT k) →
        (Graph.deserialize [] j.graph).length ≤ k →
        ∀ fuel s, eval_graph_cpp fuel j ≠ .ok s) ∧
      ∀ n d rest,
        (Graph.deserialize [] j.graph).getNode j.output_node_index.toSizeT = some n →
        n.getDependencies = d :: rest → (Graph.deserialize [] j.graph).length ≤ d →
        ∀ fuel, eval_graph_cpp (fuel + 1) j = .outOfRange := by
  have hempty := Graph.deserialize_allEmpty j.graph
  have hnone : ∀ n,
      (Graph.deserialize [] j.graph).getNode j.output_node_index.toSizeT = some n →
      n.cached_result = none := fun n hn => hempty n (List.getElem?_mem hn)
  refine ⟨by rw [Graph.deserialize_eq]; rfl, hempty,
    fun n h hn => ⟨JsonInt.toChildIndex_ofNat n h hn, JsonInt.toSizeT_ofNat n h⟩,
    fun fuel s hp fuel' hle => ?_,
    fun k hk hlen fuel s hr => ?_, fun n d rest hn hdeps hlen fuel => ?_⟩
  · obtain ⟨g', hg'⟩ := Node.eval_complete _ fuel' _ j.output_node_index.toSizeT s
      (Agrees.of_allEmpty hempty) (pureEval_mono hle _ _ s hp)
    simp [eval_graph_cpp, Computation.eval, Computation.deserialize, hg']
  · simp only [eval_graph_cpp, Computation.eval, Computation.deserialize] at hr
    have h' : Node.eval fuel (Graph.deserialize [] j.graph) j.output_node_index.toSizeT =
        ((Node.eval fuel (Graph.deserialize [] j.graph) j.output_node_index.toSizeT).1,
          .ok s) := by
      rw [← hr]
    obtain ⟨_, f', hf'⟩ := Node.eval_sound _ fuel _ _ _ s (Agrees.of_allEmpty hempty) h'
    obtain ⟨h1, h2⟩ := pureEval_ok_valid hf'
    rcases hk with rfl | hk
    · omega
    · have := h2 k hk
      omega
  · simp only [eval_graph_cpp, Computation.eval, Computation.deserialize]
    rw [Node.eval_first_dangling fuel hn (hnone n hn) hdeps hlen]

/-- Witness for C12: `[Constant "a", Length [5]]` returns "a" with output
index 0, throws with output index 1 and returns nothing with output index 7;
`[Constant "a", Concatenation [4294967296]]` is built with the child index 0 and
returns "a"; `[Constant "a", Concatenation [-1]]` is built with the child index
`2^64 - 1` and throws. -/
theorem invalid_reference_lazy_witness :
    eval_graph_cpp 1 inputDangling0 = .ok (bytes "a") ∧
      (∀ fuel', 1 ≤ fuel' → eval_graph_cpp fuel' inputDangling0 = .ok (bytes "a")) ∧
      (∀ fuel, eval_graph_cpp (fuel + 1) inputDangling1 = .outOfRange) ∧
      (∀ fuel s, eval_graph_cpp fuel inputDangling7 ≠ .ok s) ∧
      (Computation.deserialize inputWide).graph =
        [⟨none, .constant (bytes "a")⟩, ⟨none, .concatenation [0]⟩] ∧
      (∀ fuel', 2 ≤ fuel' → eval_graph_cpp fuel' inputWide = .ok (bytes "a")) ∧
      (Computation.deserialize inputNegative).graph =
        [⟨none, .constant (bytes "a")⟩, ⟨none, .concatenation [2 ^ 64 - 1]⟩] ∧
      ∀ fuel, eval_graph_cpp (fuel + 1) inputNegative = .outOfRange :=
  ⟨by decide,
    (invalid_reference_lazy inputDangling0).2.2.2.1 1 (bytes "a") (by decide),
    (invalid_reference_lazy inputDangling1).2.2.2.2.2 ⟨none, .lengthCalculation 5⟩ 5 []
      (by decide) rfl (by decide),
    (invalid_reference_lazy inputDangling7).2.2.2.2.1 7 (Or.inl (by decide)) (by decide),
    by decide,
    (invalid_reference_lazy inputWide).2.2.2.1 2 (bytes "a") (by decide),
    by decide,
    (invalid_reference_lazy inputNegative).2.2.2.2.2 ⟨none, .concatenation [2 ^ 64 - 1]⟩
      (2 ^ 64 - 1) [] (by decide) rfl (by decide)⟩

/-- C13. Pattern match: an uncached PatternMatch node whose dependencies evaluate
to `input` and `pattern` evaluates to "true" when `input = p ++ pattern ++ s` for
some `p` and `s`, and to "false" otherwise; the empty pattern gives "true" for
every input. -/
theorem pattern_match (fuel : Nat) (g g1 g2 : Graph) (i a b : Nat) (input pattern : Str)
    (hn : g.getNode i = some ⟨none, .patternMatching a b⟩)
    (h1 : Node.eval fuel g a = (g1, .ok input))
    (h2 : Node.eval fuel g1 b = (g2, .ok pattern)) :
    ((∃ p s, input = p ++ pattern ++ s) → (Node.eval (fuel + 1) g i).2 = .ok (bytes "true")) ∧
      ((¬ ∃ p s, input = p ++ pattern ++ s) →
        (Node.eval (fuel + 1) g i).2 = .ok (bytes "false")) ∧
      (pattern = [] → (Node.eval (fuel + 1) g i).2 = .ok (bytes "true")) := by
  have hres : (Node.eval (fuel + 1) g i).2 = .ok (PatternMatchingNode.result input pattern) := by
    rw [Node.eval_succ_uncached fuel hn rfl]
    simp [eval_inner, h1, h2, andThen]
  have hyes : (∃ p s, input = p ++ pattern ++ s) →
      (Node.eval (fuel + 1) g i).2 = .ok (bytes "true") := by
    intro h
    rw [hres, PatternMatchingNode.result, if_pos ((find_isSome_iff input pattern).mpr h)]
  refine ⟨hyes, fun h => ?_, fun h => hyes ⟨[], input, by simp [h]⟩⟩
  rw [hres, PatternMatchingNode.result, if_neg (fun hc => h ((find_isSome_iff input pattern).mp hc))]

/-- Witness for C13: "wor" occurs in "hello world"; the empty pattern matches
"hello world" and the empty text; "hello world" does not occur in "wor". -/
theorem pattern_match_witness :
    (Node.eval 2 graphPat 2).2 = .ok (bytes "true") ∧
      (Node.eval 2 graphPat 4).2 = .ok (bytes "true") ∧
      (Node.eval 2 graphPat 5).2 = .ok (bytes "true") ∧
      (Node.eval 2 graphPat 6).2 = .ok (bytes "false") ∧
      (Node.eval 2 graphPat 2).2 = .ok (bytes "true") :=
  ⟨by decide, by decide, by decide, by decide,
    (pattern_match 1 graphPat (Node.eval 1 graphPat 0).1
      (Node.eval 1 (Node.eval 1 graphPat 0).1 1).1 2 0 1 (bytes "hello world") (bytes "wor")
      (by decide) (by decide) (by decide)).1 ⟨bytes "hello ", bytes "ld", by decide⟩⟩

/-- C14. Length: an uncached Length node whose dependency evaluates to `input`
evaluates to the canonical decimal representation of the number of bytes of
`input`: only digit bytes, at least one, no leading zero except for the single
digit "0" of the empty input, and denoting the byte count. -/
theorem length_decimal (fuel : Nat) (g g1 : Graph) (i a : Nat) (input : Str)
    (hn : g.getNode i = some ⟨none, .lengthCalculation a⟩)
    (h1 : Node.eval fuel g a = (g1, .ok input)) :
    ∃ r, (Node.eval (fuel + 1) g i).2 = .ok r ∧
      (∀ c ∈ r, 48 ≤ c.toNat ∧ c.toNat ≤ 57) ∧ r ≠ [] ∧
      (input = [] → r = bytes "0") ∧
      (input ≠ [] → r.head? ≠ some (UInt8.ofNat 48)) ∧
      decimalValue r = input.length := by
  refine ⟨to_string input.length, ?_, ?_⟩
  · rw [Node.eval_succ_uncached fuel hn rfl]
    simp [eval_inner, h1, andThen, LengthCalculationNode.result]
  · obtain ⟨h1, h2, h3, h4, h5⟩ := to_string_canonical input.length
    exact ⟨h1, h2, fun h => h3 (by simp [h]), fun h => h4 (by simpa using h), h5⟩

/-- Witness for C14: "héllo" has five characters and six bytes, and its Length
node evaluates to "6"; the Length node of the empty text evaluates to "0". -/
theorem length_decimal_witness :
    (bytes "héllo").length = 6 ∧ (Node.eval 2 graphLen 1).2 = .ok (bytes "6") ∧
      (Node.eval 2 graphLen 3).2 = .ok (bytes "0") ∧
      ∃ r, (Node.eval 2 graphLen 1).2 = .ok r ∧
        (∀ c ∈ r, 48 ≤ c.toNat ∧ c.toNat ≤ 57) ∧ r ≠ [] ∧
        (bytes "héllo" = [] → r = bytes "0") ∧
        (bytes "héllo" ≠ [] → r.head? ≠ some (UInt8.ofNat 48)) ∧
        decimalValue r = (bytes "héllo").length :=
  ⟨by decide, by decide, by decide,
    length_decimal 1 graphLen (Node.eval 1 graphLen 0).1 1 0 (bytes "héllo")
      (by decide) (by decide)⟩

/-- C15. Case conversion: an uncached CaseConversion node whose dependency
evaluates to `input` evaluates to a string of the same length; with mode "upper"
every byte `'a'..'z'` (97..122) is replaced by the byte 32 below it and every
other byte kept; with mode "lower" every byte `'A'..'Z'` (65..90) is replaced by
the byte 32 above it and every other byte kept; with any other mode the result is
`input`; and converting the result again with the same mode changes nothing. -/
theorem case_conversion (fuel : Nat) (g g1 : Graph) (i a : Nat) (t input : Str)
    (hn : g.getNode i = some ⟨none, .caseConversion a t⟩)
    (h1 : Node.eval fuel g a = (g1, .ok input)) :
    ∃ r, (Node.eval (fuel + 1) g i).2 = .ok r ∧ r.length = input.length ∧
      (t = bytes "upper" → ∀ (k : Nat) (c : UInt8), input[k]? = some c → ∃ c', r[k]? = some c' ∧
        (97 ≤ c.toNat ∧ c.toNat ≤ 122 → c'.toNat = c.toNat - 32) ∧
        (¬ (97 ≤ c.toNat ∧ c.toNat ≤ 122) → c' = c)) ∧
      (t = bytes "lower" → ∀ (k : Nat) (c : UInt8), input[k]? = some c → ∃ c', r[k]? = some c' ∧
        (65 ≤ c.toNat ∧ c.toNat ≤ 90 → c'.toNat = c.toNat + 32) ∧
        (¬ (65 ≤ c.toNat ∧ c.toNat ≤ 90) → c' = c)) ∧
      (t ≠ bytes "upper" → t ≠ bytes "lower" → r = input) ∧
      CaseConversionNode.result t r = r := by
  refine ⟨CaseConversionNode.result t input, ?_, ?_, ?_, ?_, ?_,
    CaseConversionNode.result_idem t input⟩
  · rw [Node.eval_succ_uncached fuel hn rfl]
    simp [eval_inner, h1, andThen]
  · unfold CaseConversionNode.result
    split
    · simp
    · split <;> simp
  · intro ht k c hc
    refine ⟨toupper c, ?_, toupper_spec c⟩
    simp [CaseConversionNode.result, ht, hc]
  · intro ht k c hc
    have hne : ¬ bytes "lower" = bytes "upper" := by decide
    refine ⟨tolower c, ?_, tolower_spec c⟩
    simp [CaseConversionNode.result, ht, hne, hc]
  · intro hu hl
    simp [CaseConversionNode.result, hu, hl]

/-- Witness for C15: "Hello, World!" in the modes "upper", "lower" and "title". -/
theorem case_conversion_witness :
    (Node.eval 2 graphCase 1).2 = .ok (bytes "HELLO, WORLD!") ∧
      (Node.eval 2 graphCase 2).2 = .ok (bytes "hello, world!") ∧
      (Node.eval 2 graphCase 3).2 = .ok (bytes "Hello, World!") ∧
      ∃ r, (Node.eval 2 graphCase 1).2 = .ok r ∧ r.length = (bytes "Hello, World!").length :=
  ⟨by decide, by decide, by decide,
    (case_conversion 1 graphCase (Node.eval 1 graphCase 0).1 1 0 (bytes "upper")
      (bytes "Hello, World!") (by decide) (by decide)).imp fun _ h => ⟨h.1, h.2.1⟩⟩

/-- C16. Parameters under evaluation, on the source: the Substring node with
start 0 and end 10 over the constant "ab" evaluates to "ab", and afterwards its
member `endIndex` is 2; after `setValue "hello"` on the constant and the sweep,
which clears the Substring node, it evaluates to "he", while a Substring with the
constructed end 10 over "hello" evaluates to "hello". The `endIndex` of a
Substring is the only field evaluation writes (`Frame`). -/
theorem substring_end_overwritten :
    (Node.eval 2 graphClamp0 1 = (graphClamp1, .ok (bytes "ab")) ∧
      graphClamp0.getNode 1 = some ⟨none, .substring 0 0 10⟩ ∧
      graphClamp1.getNode 1 = some ⟨some (bytes "ab"), .substring 0 0 2⟩ ∧
      (ConstantNode.setValue graphClamp1 0 (bytes "hello")).map Graph.checkInvalidateCache =
        some (graphClamp2, .returned) ∧
      (Node.eval 2 graphClamp2 1).2 = .ok (bytes "he") ∧
      (Node.eval 2 graphClampFresh 1).2 = .ok (bytes "hello")) ∧
      ∀ fuel g i, Frame g (Node.eval fuel g i).1 :=
  ⟨by decide, Node.eval_frame⟩

/-- C17. Single pass in topological order: when every dependency index of node
`i` is below `i`, one call of `checkInvalidateCache` returns (it does not throw),
leaves cached exactly the nodes that were cached at entry with no uncached node
among their direct or transitive dependencies at entry, each of them exactly as
it was, and a second call changes nothing. -/
theorem single_pass_topological (g : Graph) (htopo : TopoOrdered g) :
    (Graph.checkInvalidateCache g).2 = .returned ∧
      (∀ j, CachedAt (Graph.checkInvalidateCache g).1 j ↔ Settled g j) ∧
      (∀ j n', (Graph.checkInvalidateCache g).1.getNode j = some n' →
        n'.cached_result ≠ none → g.getNode j = some n') ∧
      Graph.checkInvalidateCache (Graph.checkInvalidateCache g).1 =
        ((Graph.checkInvalidateCache g).1, .returned) := by
  obtain ⟨hret, hcl, hiff⟩ := checkInvalidateCache_topo g htopo
  refine ⟨hret, hiff, fun j n' hn' hc => ?_, ?_⟩
  · rcases hcl.2 j with h1 | ⟨n, _, h2⟩
    · rw [← h1]; exact hn'
    · rw [hn'] at h2
      injection h2 with h2
      subst h2
      exact absurd rfl hc
  · exact sweep_fixpoint _ (htopo.transfer_kinds hcl.kind)
      (checkInvalidateCache_settled g htopo)

/-- Witness for C17: the chain stored dependencies first, after `setValue` on its
constant; one pass clears both Length nodes. -/
theorem single_pass_topological_witness :
    Graph.checkInvalidateCache graphTopoSet = (graphTopoSwept, .returned) ∧
      Graph.checkInvalidateCache (Graph.checkInvalidateCache graphTopoSet).1 =
        ((Graph.checkInvalidateCache graphTopoSet).1, .returned) :=
  ⟨by decide, (single_pass_topological graphTopoSet graphTopoSet_topoOrdered).2.2.2⟩

/-- C18. Cache consistency on well-ordered graphs: on a graph without Substring
node in which every dependency index of node `i` is below `i`, the predicate
"every cached node has all its direct dependencies cached and its cached string
is the cache-free value of the node under the current fields" holds when all
caches are empty, and it holds again, on a graph that is again of this kind, after
every `Node::eval` that returns a string and after every `setValue` followed by
`checkInvalidateCache` (which returns). -/
theorem cache_consistency_invariant (g : Graph) (hns : NoSubstring g)
    (htopo : TopoOrdered g) :
    (AllEmpty g → CacheConsistent g) ∧
      (CacheConsistent g → ∀ fuel i g' s, Node.eval fuel g i = (g', .ok s) →
        CacheConsistent g' ∧ NoSubstring g' ∧ TopoOrdered g') ∧
      (CacheConsistent g → ∀ c val h, ConstantNode.setValue g c val = some h →
        (Graph.checkInvalidateCache h).2 = .returned ∧
        CacheConsistent (Graph.checkInvalidateCache h).1 ∧
        NoSubstring (Graph.checkInvalidateCache h).1 ∧
        TopoOrdered (Graph.checkInvalidateCache h).1) := by
  refine ⟨fun hempty i n v hn hv => ?_, fun hcc fuel i g' s h => ?_,
    fun hcc c val h hset => ?_⟩
  · rw [hempty n (List.getElem?_mem hn)] at hv
    cases hv
  · obtain ⟨h1, hk⟩ := hcc.eval hns h
    exact ⟨h1, hns.transfer_noSub hk, htopo.transfer_kinds hk⟩
  · obtain ⟨htopoh, hret, hcc'⟩ := hcc.setValue_sweep htopo hset
    have hnsh : NoSubstring h := by
      intro n hn i s e hkind
      obtain ⟨j, hj, hjn⟩ := List.getElem_of_mem hn
      have hjn' : h.getNode j = some n := by
        simp only [Graph.getNode]; rw [List.getElem?_eq_getElem hj, hjn]
      obtain ⟨n', hn', _, hsub⟩ := ConstantNode.setValue_deps hset hjn'
      obtain ⟨i', s', e', hk'⟩ := hsub ⟨i, s, e, hkind⟩
      exact hns n' (List.getElem?_mem hn') i' s' e' hk'
    obtain ⟨_, hcl, _⟩ := checkInvalidateCache_topo h htopoh
    exact ⟨hret, hcc', hnsh.transfer_noSub hcl.kind, htopoh.transfer_kinds hcl.kind⟩

/-- Witness for C18: the chain stored dependencies first, with empty caches, and
its evaluation at node 2. -/
theorem cache_consistency_invariant_witness :
    Node.eval 3 graphTopo0 2 = (graphTopo, .ok (bytes "1")) ∧
      CacheConsistent graphTopo0 ∧ CacheConsistent graphTopo :=
  ⟨by decide,
    (cache_consistency_invariant graphTopo0 graphTopo0_noSubstring graphTopo0_topoOrdered).1
      (by unfold AllEmpty; decide),
    ((cache_consistency_invariant graphTopo0 graphTopo0_noSubstring
      graphTopo0_topoOrdered).2.1
      ((cache_consistency_invariant graphTopo0 graphTopo0_noSubstring
        graphTopo0_topoOrdered).1 (by unfold AllEmpty; decide))
      3 2 graphTopo (bytes "1") (by decide)).1⟩

/-- C20, on the source: with the empty `old`, the input "aaa" and the one-byte
`new` "b" the loop does end. Whatever the size limit of the strings is, the pass
in which the result would outgrow it leaves the loop by the exception of
`result.replace`: with a limit of five bytes that is the third pass. -/
theorem replacement_empty_old_throws :
    (∀ cap, 3 ≤ cap →
        ReplacementNode.loopWithin cap [] (bytes "b") (cap - 2) (bytes "aaa") 0 =
          some .threw) ∧
      ReplacementNode.loopWithin 5 [] (bytes "b") 2 (bytes "aaa") 0 = none ∧
      ReplacementNode.loopWithin 5 [] (bytes "b") 3 (bytes "aaa") 0 = some .threw ∧
      ¬ ∀ fuel, ReplacementNode.loopWithin 5 [] (bytes "b") fuel (bytes "aaa") 0 = none := by
  refine ⟨fun cap hcap => ?_, by decide, by decide, fun h => absurd (h 3) (by decide)⟩
  rw [ReplacementNode.loopWithin_nil_grow cap (bytes "b") (by decide) (cap - 2) (bytes "aaa") 0
    (Nat.zero_le _) hcap]
  have h1 : (bytes "b").length = 1 := rfl
  have h3 : (bytes "aaa").length = 3 := rfl
  rw [h1, h3, Nat.div_one, if_pos (by omega)]

/-- C20, as the source has it. The strings are limited to `cap` bytes. With a
non-empty `old` the loop has ended once its condition has been evaluated more
than `len input / len old` times, the number of replacements being at most that
quotient; it returns the result of the reference scan, after exactly as many
replacements as the scan finds occurrences, when that result fits. With an empty
`old` and an empty `new` the loop never ends. With an empty `old` and a non-empty
`new` it is still running after `(cap - len input) / len new` passes and is left
in the next pass by the exception of `result.replace`. A result the loop returns
is the result of the loop `eval_inner` is evaluated with. -/
theorem replacement_loop_termination (cap : Nat) (input old new : Str)
    (hcap : input.length ≤ cap) :
    (old ≠ [] →
        countScan old 0 input ≤ input.length / old.length ∧
        (∀ fuel, input.length / old.length < fuel →
          ∃ e, ReplacementNode.loopWithin cap old new fuel input 0 = some e) ∧
        ((replaceScan old new 0 input).length ≤ cap → ∀ fuel,
          (ReplacementNode.loopWithin cap old new fuel input 0 =
              some (.returned (replaceScan old new 0 input)) ↔
            countScan old 0 input < fuel))) ∧
      (old = [] → new = [] →
        ∀ fuel, ReplacementNode.loopWithin cap old new fuel input 0 = none) ∧
      (old = [] → new ≠ [] → ∀ fuel,
        ReplacementNode.loopWithin cap old new fuel input 0 =
          if (cap - input.length) / new.length < fuel then some .threw else none) ∧
      ∀ fuel r, ReplacementNode.loopWithin cap old new fuel input 0 = some (.returned r) →
        ReplacementNode.loop old new fuel input 0 = some r := by
  refine ⟨fun hold => ⟨countScan_le_div old new hold input, fun fuel hf => ?_,
      fun hfit fuel => ⟨fun h => ?_, fun h => ?_⟩⟩, ?_, ?_,
    fun fuel r h => ReplacementNode.loopWithin_returned cap old new fuel input 0 r h⟩
  · have hle := countScan_le_div old new hold input
    exact ReplacementNode.loopWithin_ends cap old new hold fuel [] input (by omega)
  · have := ReplacementNode.loopWithin_returned cap old new fuel input 0 _ h
    exact (ReplacementNode.loop_some_iff old new hold fuel [] input).mp ⟨_, this⟩
  · have := ReplacementNode.loopWithin_scan cap old new hold fuel [] input h
      (by simpa using hcap) (by simpa using hfit)
    simpa using this
  · rintro rfl rfl fuel
    exact ReplacementNode.loopWithin_nil_nil cap fuel input 0 (Nat.zero_le _) hcap
  · rintro rfl hnew fuel
    exact ReplacementNode.loopWithin_nil_grow cap new hnew fuel input 0 (Nat.zero_le _) hcap

/-- Witness for C20, with strings of at most ten bytes: "aa" in "aaa" is replaced
once and "ba" returned at the second evaluation of the condition; with the empty
`old` and the empty `new` fifty passes do not end the loop; with the empty `old`
and `new` = "b" the loop runs seven passes and is left by the exception in the
eighth. -/
theorem replacement_loop_termination_witness :
    (bytes "aaa").length ≤ 10 ∧
      ReplacementNode.loopWithin 10 (bytes "aa") (bytes "b") 1 (bytes "aaa") 0 = none ∧
      ReplacementNode.loopWithin 10 (bytes "aa") (bytes "b") 2 (bytes "aaa") 0 =
        some (.returned (bytes "ba")) ∧
      ReplacementNode.loopWithin 10 [] [] 50 (bytes "aaa") 0 = none ∧
      ReplacementNode.loopWithin 10 [] (bytes "b") 7 (bytes "aaa") 0 = none ∧
      ReplacementNode.loopWithin 10 [] (bytes "b") 8 (bytes "aaa") 0 = some .threw ∧
      (∀ fuel, ReplacementNode.loopWithin 10 [] [] fuel (bytes "aaa") 0 = none) ∧
      (∀ fuel, (bytes "aaa").length / (bytes "aa").length < fuel →
        ∃ e, ReplacementNode.loopWithin 10 (bytes "aa") (bytes "b") fuel (bytes "aaa") 0 =
          some e) :=
  ⟨by decide, by decide, by decide, by decide, by decide, by decide,
    (replacement_loop_termination 10 (bytes "aaa") [] [] (by decide)).2.1 rfl rfl,
    ((replacement_loop_termination 10 (bytes "aaa") (bytes "aa") (bytes "b") (by decide)).1
      (by decide)).2.1⟩

end StrGraph
